import Mathlib

/-!
Shallow embedding of the incremental documentation-branch synchronization core
of `src/lib/github-docs-generator.ts` (class `GitHubDocsGenerator`), and proofs
about it.

Modelling conventions:
* JavaScript strings are modelled as `List Char` (`Str`); a file read/written
  as a whole is a list of lines (each line newline-free).
* The filesystem is an association list from paths to contents; paths are
  repository-relative (the common `this.repoPath` prefix is dropped, since
  every function under study joins it onto every path uniformly).
* Git transport (fetch, merge, commit, push, log, status) is an external
  capability; its outcomes appear as explicit oracle fields in environment
  structures.  Where the behaviour of `simple-git` matters (a conflicted
  `git merge` rejects the promise; `git commit` with nothing to commit
  rejects), that behaviour is encoded and documented at the definition.
* Node `path` helpers (`dirname`, `extname`, `parse(..).name`, `join`) are
  reimplemented for POSIX separators on the slash-normalized relative paths
  the generator feeds them.
-/

/-- JavaScript string, modelled as its list of characters. -/
abbrev Str := List Char

/-- Coerce a Lean string literal to the `Str` model. -/
def strOf (s : String) : Str := s.data

/-- Split a character list at every occurrence of a separator character
(the model of JavaScript `String.prototype.split` with a one-char separator:
always returns at least one, possibly empty, piece). -/
def splitOnChar (c : Char) : Str → List Str
  | [] => [[]]
  | x :: xs =>
    match splitOnChar c xs with
    | [] => if x = c then [[], []] else [[x]]
    | y :: ys => if x = c then [] :: y :: ys else (x :: y) :: ys

/-- Join path components with `/` separators. -/
def joinParts : List Str → Str
  | [] => []
  | [x] => x
  | x :: xs => x ++ '/' :: joinParts xs

/-- Membership test on a list of strings (model of `Array.prototype.includes`
and of `list.includes(x)` on string arrays). -/
def memStr (x : Str) : List Str → Bool
  | [] => false
  | y :: ys => if y = x then true else memStr x ys

/-- Test whether `pre` is a prefix of `s` (model of `String.prototype.startsWith`). -/
def startsWithStr : Str → Str → Bool
  | [], _ => true
  | _ :: _, [] => false
  | p :: ps, c :: cs => p = c && startsWithStr ps cs

/-- Test whether `suf` is a suffix of `s` (model of `String.prototype.endsWith`). -/
def endsWithStr (suf s : Str) : Bool := startsWithStr suf.reverse s.reverse

/-- Test whether `pat` occurs as a contiguous substring of `s` (model of
`String.prototype.includes`). -/
def includesStr (s pat : Str) : Bool :=
  match s with
  | [] => startsWithStr pat []
  | _ :: rest => startsWithStr pat s || includesStr rest pat

/-- Index of the last occurrence of a character in a list, if any. -/
def lastIndexOfChar (c : Char) : Str → Option Nat
  | [] => none
  | x :: xs =>
    match lastIndexOfChar c xs with
    | some i => some (i + 1)
    | none => if x = c then some 0 else none

/-- Model of Node `path.basename` on slash-normalized relative paths:
the final path component. -/
def basenameOf (p : Str) : Str := (splitOnChar '/' p).getLastD []

/-- Model of Node `path.extname` (POSIX): the suffix of the final component
from its last dot, empty when the only dot leads the component or the
component is `..`.  Trailing-slash edge cases of Node are not reproduced;
the generator only passes slash-normalized relative file paths. -/
def extnameOf (p : Str) : Str :=
  let b := basenameOf p
  if b = strOf ".." then []
  else
    match lastIndexOfChar '.' b with
    | some i => if 0 < i then b.drop i else []
    | none => []

/-- Model of Node `path.parse(p).name`: the final component with its
extension removed. -/
def parseNameOf (p : Str) : Str :=
  let b := basenameOf p
  b.take (b.length - (extnameOf p).length)

/-- Model of Node `path.dirname` on slash-normalized relative paths: all but
the final component, `.` when there is none. -/
def dirnameOf (p : Str) : Str :=
  let parts := (splitOnChar '/' p).dropLast
  if parts = [] then strOf "." else joinParts parts

/-- Path normalization step used by Node `path.join`: drop empty and `.`
components and resolve `..` against the accumulated stack. -/
def normParts (acc : List Str) : List Str → List Str
  | [] => acc
  | p :: ps =>
    if p = [] || p = strOf "." then normParts acc ps
    else if p = strOf ".." then
      if acc ≠ [] && acc.getLastD [] ≠ strOf ".." then normParts acc.dropLast ps
      else normParts (acc ++ [p]) ps
    else normParts (acc ++ [p]) ps

/-- Model of Node `path.join(a, b)` for relative POSIX paths. -/
def pjoin (a b : Str) : Str :=
  let n := normParts [] (splitOnChar '/' a ++ splitOnChar '/' b)
  if n = [] then strOf "." else joinParts n

/-- Lowercase a string character by character (model of
`String.prototype.toLowerCase` on the ASCII extension strings in play). -/
def toLowerStr (s : Str) : Str := s.map Char.toLower

/-- The option record of the generator (`DocumentationOptions` merged with the
constructor defaults, lines 40-93).  `force` only affects logging and is
omitted. -/
structure DocOptions where
  overwrite : Bool
  excludePatterns : List Str
  supportedExtensions : List Str
deriving DecidableEq

/-- Constructor defaults of `GitHubDocsGenerator` (lines 41-91). -/
def defaultOptions : DocOptions where
  overwrite := false
  excludePatterns :=
    [strOf "node_modules", strOf ".git", strOf ".next", strOf "dist",
     strOf "build", strOf ".env*", strOf "venv", strOf "env",
     strOf ".vscode", strOf ".idea", strOf "logs", strOf "coverage",
     strOf ".nyc_output", strOf "__pycache__", strOf "*.pyc", strOf "*.log",
     strOf "*.tmp", strOf ".DS_Store", strOf "package-lock.json",
     strOf "yarn.lock", strOf "pnpm-lock.yaml", strOf ".gitignore",
     strOf "*.md", strOf "*.json", strOf "*.yml", strOf "*.yaml",
     strOf "*.xml", strOf "*.txt", strOf "*.lock", strOf "docs",
     strOf "scripts"]
  supportedExtensions :=
    [strOf ".js", strOf ".jsx", strOf ".ts", strOf ".tsx", strOf ".py",
     strOf ".java", strOf ".cpp", strOf ".c", strOf ".cc", strOf ".cxx",
     strOf ".go", strOf ".rs", strOf ".php", strOf ".rb", strOf ".cs",
     strOf ".swift", strOf ".kt", strOf ".scala", strOf ".vue",
     strOf ".svelte"]

/-- The source classifier `isSupportedFile` (lines 640-643): the lowercased
extension must be in the supported-extension allow-list.  Note that the
exclusion patterns play no part here. -/
def isSupportedFile (opts : DocOptions) (filePath : Str) : Bool :=
  memStr (toLowerStr (extnameOf filePath)) opts.supportedExtensions

/-- Spec-side glob matching for one exclusion pattern, following the spec's
words for the fixed pattern shapes in the default exclusion table: `*.suf`
patterns match a path whose final component ends in `suf`; `name*` patterns
match a path one of whose components starts with `name`; bare names match a
path one of which components equals the name. -/
def matchesPattern (p : Str) (pat : Str) : Bool :=
  match pat with
  | '*' :: suf => endsWithStr suf (basenameOf p)
  | _ =>
    if endsWithStr (strOf "*") pat then
      (splitOnChar '/' p).any (fun c => startsWithStr pat.dropLast c)
    else
      (splitOnChar '/' p).any (fun c => c = pat)

/-- Modelled from the spec: the classifier contract `isDocumentable` of
section 4.1 — "Pure function of the path's extension against a fixed
allow-list (language source extensions) and exclusion glob set".  This is the
spec's words, for comparison with the source's `isSupportedFile`, which
consults only the allow-list. -/
def isDocumentableSpec (opts : DocOptions) (p : Str) : Bool :=
  isSupportedFile opts p && !(opts.excludePatterns.any (matchesPattern p))

/-- Code-point comparison of strings (model of the JavaScript default string
ordering used by `Array.prototype.sort()`; `localeCompare` is likewise
modelled by code-point order — the properties proved below are insensitive to
the particular total order). -/
def strLeB : Str → Str → Bool
  | [], _ => true
  | _ :: _, [] => false
  | a :: as, b :: bs => if a = b then strLeB as bs else decide (a < b)

/-- Insert into a list sorted by `le`. -/
def insertSortedBy (le : α → α → Bool) (a : α) : List α → List α
  | [] => [a]
  | b :: l => if le a b then a :: b :: l else b :: insertSortedBy le a l

/-- Insertion sort by a boolean comparison. -/
def sortByB (le : α → α → Bool) (l : List α) : List α :=
  l.foldr (insertSortedBy le) []

/-- Sort a list of strings ascending (model of `array.sort()` on strings). -/
def sortStr : List Str → List Str := sortByB strLeB

/-- Filesystem model: association list from repository-relative paths to file
contents; earlier entries shadow later ones. -/
abbrev FS := List (Str × Str)

/-- Model of `fs.pathExists` on the repository checkout. -/
def pathExistsFS (fs : FS) (p : Str) : Bool := fs.any (fun e => e.1 = p)

/-- The doc-artifact path derivation of `documentationExists` (lines 645-652):
`docs/<dirname(f)>/<parse(f).name>.md`, built with `path.join`. -/
def documentationExists (fs : FS) (filePath : Str) : Bool :=
  let docsDir := strOf "docs"
  let sourceDir := dirnameOf filePath
  let docDir := pjoin docsDir sourceDir
  let docFile := pjoin docDir (parseNameOf filePath ++ strOf ".md")
  pathExistsFS fs docFile

/-- The write performed by `saveDocumentation` (lines 794-808): ensure the
doc directory and write `docs/<dirname(f)>/<parse(f).name>.md`.  Directory
creation is implicit in the path-set model. -/
def saveDocumentation (fs : FS) (filePath content : Str) : FS :=
  let docsDir := strOf "docs"
  let sourceDir := dirnameOf filePath
  let docDir := pjoin docsDir sourceDir
  let docFile := pjoin docDir (parseNameOf filePath ++ strOf ".md")
  (docFile, content) :: fs

/-- Incremental branch of `findSourceFiles` (lines 566-604): walk
`changedFiles` then `newFiles`, keep each entry that exists on disk and is
supported, and sort the result.  The nested `overwrite` conditional of lines
579-588 is kept as in the source; all three of its arms push the file. -/
def findSourceFilesIncremental (fs : FS) (opts : DocOptions)
    (changedFiles newFiles : List Str) : List Str × List Str :=
  let fromChanged := changedFiles.foldl
    (fun acc file =>
      if pathExistsFS fs file && isSupportedFile opts file then
        if documentationExists fs file then
          if opts.overwrite then acc ++ [file]
          else acc ++ [file]
        else acc ++ [file]
      else acc) []
  let fromNew := newFiles.foldl
    (fun acc file =>
      if pathExistsFS fs file && isSupportedFile opts file then acc ++ [file]
      else acc) fromChanged
  (sortStr fromNew, [])

/-- Action labelling of the per-file loop in `run` (lines 1238-1240): a work
item is logged as updating when its path is in `changedFiles`, else creating
when in `newFiles`, else processing. -/
inductive DocAction | updating | creating | processing
deriving DecidableEq

/-- The membership-based label computed by `run` for each planned file. -/
def actionLabel (changedFiles newFiles : List Str) (f : Str) : DocAction :=
  if memStr f changedFiles then .updating
  else if memStr f newFiles then .creating
  else .processing

/-- Git tree (or working-tree) snapshot: paths to blob contents. -/
abbrev GTree := List (Str × Str)

/-- Lookup of a path in a tree. -/
def lookupT : GTree → Str → Option Str
  | [], _ => none
  | (k, v) :: rest, p => if k = p then some v else lookupT rest p

/-- Deduplicated key list, first occurrences kept in order. -/
def dedupKeys (l : List Str) : List Str :=
  l.foldl (fun acc k => if memStr k acc then acc else acc ++ [k]) []

/-- All paths mentioned by any of the three merge inputs. -/
def treeKeys (base ours theirs : GTree) : List Str :=
  dedupKeys (base.map Prod.fst ++ ours.map Prod.fst ++ theirs.map Prod.fst)

/-- Per-path result of a three-way git merge. -/
inductive PathMerge
  | take (c : Option Str)
  | conflict
deriving DecidableEq

/-- Standard per-path three-way merge rule of `git merge`: keep the side that
changed relative to the merge base, and conflict when both sides changed to
different contents (including modify/delete). -/
def mergePath (b o t : Option Str) : PathMerge :=
  if o = t then .take o
  else if o = b then .take t
  else if t = b then .take o
  else .conflict

/-- Working-tree content git leaves at a conflicted path: both versions
between conflict markers. -/
def conflictContent (o t : Option Str) : Str :=
  strOf "<<<<<<< HEAD\n" ++ o.getD [] ++ strOf "\n=======\n" ++ t.getD []
    ++ strOf "\n>>>>>>> origin/main\n"

/-- Three-way merge of whole trees: the resulting working tree and the list
of conflicted paths. -/
def mergeTrees (base ours theirs : GTree) : GTree × List Str :=
  (treeKeys base ours theirs).foldl
    (fun acc k =>
      match mergePath (lookupT base k) (lookupT ours k) (lookupT theirs k) with
      | .take none => acc
      | .take (some c) => (acc.1 ++ [(k, c)], acc.2)
      | .conflict =>
        (acc.1 ++ [(k, conflictContent (lookupT ours k) (lookupT theirs k))],
         acc.2 ++ [k]))
    ([], [])

/-- Extensional equality of trees as path-to-content maps. -/
def treesEqual (t1 t2 : GTree) : Bool :=
  (dedupKeys (t1.map Prod.fst ++ t2.map Prod.fst)).all
    (fun k => decide (lookupT t1 k = lookupT t2 k))

/-- Outcome of the merge step of `mergeFromMainBranch`. -/
structure MergeOutcome where
  /-- Working tree after the step. -/
  tree : GTree
  /-- Whether the merge commit of line 510 was created. -/
  committed : Bool
  /-- Paths still in conflicted (unmerged) state. -/
  conflicted : List Str
  /-- Whether a git failure was caught and discarded by the
  `catch (mergeError)` of lines 512-514. -/
  errorSwallowed : Bool
deriving DecidableEq

/-- The merge step of `mergeFromMainBranch` (lines 491-514).  The code runs
`git merge origin/<main> --no-ff --no-commit`, then — if that call returned —
inspects `status().conflicted`, stages conflicted paths under `docs/` or equal
to `DOCUMENTATION_INDEX.md`, and commits.  Capability semantics encoded here:
a conflicted `git merge` exits non-zero, so `simple-git` rejects the promise
and control jumps straight to the `catch (mergeError)` of line 512, which
logs and continues; hence on any conflict no commit is made, the
conflict-staging loop of lines 502-507 never runs, and the working tree keeps
the conflict-marker contents.  When the merge succeeds but stages nothing
(upstream already merged), the `git commit` of line 510 exits non-zero
("nothing to commit"), which the same catch discards. -/
def mergeSection (base ours theirs : GTree) : MergeOutcome :=
  let wt := (mergeTrees base ours theirs).1
  let confl := (mergeTrees base ours theirs).2
  if confl = [] then
    if treesEqual wt ours then
      { tree := wt, committed := false, conflicted := [], errorSwallowed := true }
    else
      { tree := wt, committed := true, conflicted := [], errorSwallowed := false }
  else
    { tree := wt, committed := false, conflicted := confl, errorSwallowed := true }

/-- Whitespace test backing the `line.trim()` filter of line 475. -/
def isWS (c : Char) : Bool := c = ' ' || c = '\t' || c = '\n' || c = '\r'

/-- Model of `String.prototype.trim`. -/
def trimStr (s : Str) : Str :=
  ((s.dropWhile isWS).reverse.dropWhile isWS).reverse

/-- Change detection of `mergeFromMainBranch` (lines 463-489): with no last
documentation commit both sets stay empty; otherwise each nonblank
`--name-status` diff line `STATUS\tPATH` with a nonempty supported path is
classified — `A` into `newFiles`, `M` or `D` into `changedFiles`. -/
def detectChanges (opts : DocOptions) (lastDocsCommit : Option Str)
    (diffRaw : List Str) : List Str × List Str :=
  match lastDocsCommit with
  | none => ([], [])
  | some _ =>
    (diffRaw.filter (fun l => trimStr l ≠ [])).foldl
      (fun acc line =>
        let parts := splitOnChar '\t' line
        let status := parts.headD []
        match parts.get? 1 with
        | none => acc
        | some filePath =>
          if filePath ≠ [] && isSupportedFile opts filePath then
            if status = strOf "A" then (acc.1, acc.2 ++ [filePath])
            else if status = strOf "M" || status = strOf "D" then
              (acc.1 ++ [filePath], acc.2)
            else acc
          else acc)
      ([], [])

/-- Git-history oracle consumed by `mergeFromMainBranch`. -/
structure MergeEnv where
  /-- Result of `git log --grep='📝 Generate documentation' -1` (line 535). -/
  grepDocCommit : Option Str
  /-- Result of the fallback `git log -- docs/ -1` (line 541). -/
  docsTouchCommit : Option Str
  /-- Lines of `git diff <lastDocsCommit>...origin/<main> --name-status`. -/
  diffRaw : List Str
  /-- Merge base of the documentation branch and upstream tip. -/
  base : GTree
  /-- Tip tree of the documentation branch (ours). -/
  ours : GTree
  /-- Upstream tip tree `origin/<main>` (theirs). -/
  theirs : GTree
deriving DecidableEq

/-- `getLastDocumentationCommit` (lines 532-551): the commit-message grep, or
the last commit touching `docs/`, or null. -/
def getLastDocumentationCommit (e : MergeEnv) : Option Str :=
  match e.grepDocCommit with
  | some h => some h
  | none => e.docsTouchCommit

/-- Value computed by `mergeFromMainBranch`. -/
structure MergeResult where
  changedFiles : List Str
  newFiles : List Str
  needsUpdate : Bool
  merge : MergeOutcome
deriving DecidableEq

/-- `mergeFromMainBranch` (lines 448-530): change detection relative to the
last documentation commit, then the merge step, then
`needsUpdate = changedFiles.length > 0 || newFiles.length > 0`.  The result
is total in `Except`: every failure of the merge step itself is swallowed by
the inner catch (lines 512-514), so no error is ever propagated from it (the
outer catch of line 526 only re-throws failures of fetch/log/diff, which the
oracle fields here presuppose succeeded). -/
def mergeFromMainBranch (opts : DocOptions) (e : MergeEnv) :
    Except Str MergeResult :=
  let lastDocsCommit := getLastDocumentationCommit e
  let changes := detectChanges opts lastDocsCommit e.diffRaw
  let m := mergeSection e.base e.ours e.theirs
  .ok { changedFiles := changes.1, newFiles := changes.2,
        needsUpdate := !changes.1.isEmpty || !changes.2.isEmpty, merge := m }

/-- Branch-reconciler oracle: branch listing and working-tree facts consumed
by `createDocumentationBranch`. -/
structure BranchEnv where
  /-- `remotes/origin/<branch>` appears in `git branch -a` (line 374). -/
  remoteBranchExists : Bool
  /-- The branch appears locally in `git branch -a` (line 373). -/
  localBranchExists : Bool
  /-- The checkout has a `docs` directory (line 432). -/
  docsDirExists : Bool
  /-- Markdown files found under `docs/` by the glob of line 437. -/
  docsDirMdFiles : List Str
  /-- The checkout has a `DOCUMENTATION_INDEX.md` (line 433). -/
  indexFileExists : Bool
  /-- History and tree oracle for `mergeFromMainBranch`. -/
  mergeEnv : MergeEnv
deriving DecidableEq

/-- `hasExistingDocumentation` (lines 427-446): when `docs/` exists the answer
is whether it holds any `.md` file, else whether the index file exists. -/
def hasExistingDocumentation (e : BranchEnv) : Bool :=
  if e.docsDirExists then !e.docsDirMdFiles.isEmpty else e.indexFileExists

/-- Value returned by `createDocumentationBranch`. -/
structure BranchInfo where
  isExistingBranch : Bool
  hasExistingDocs : Bool
  changedFiles : List Str
  newFiles : List Str
  needsUpdate : Bool
deriving DecidableEq

/-- `createDocumentationBranch` (lines 358-425): with an existing remote
branch holding docs, delegate to `mergeFromMainBranch`; on every other path
return empty change sets with `needsUpdate := true` and `hasExistingDocs :=
false`. -/
def createDocumentationBranch (opts : DocOptions) (e : BranchEnv) :
    Except Str BranchInfo :=
  let isExistingBranch := e.localBranchExists || e.remoteBranchExists
  if e.remoteBranchExists then
    if hasExistingDocumentation e then
      match mergeFromMainBranch opts e.mergeEnv with
      | .ok r =>
        .ok { isExistingBranch := true, hasExistingDocs := true,
              changedFiles := r.changedFiles, newFiles := r.newFiles,
              needsUpdate := r.needsUpdate }
      | .error m => .error m
    else
      .ok { isExistingBranch := isExistingBranch, hasExistingDocs := false,
            changedFiles := [], newFiles := [], needsUpdate := true }
  else
    .ok { isExistingBranch := isExistingBranch, hasExistingDocs := false,
          changedFiles := [], newFiles := [], needsUpdate := true }

/-- Continuation `run` takes after `createDocumentationBranch`. -/
inductive RunStep
  | stopEarly
  | findFiles
deriving DecidableEq

/-- The early-exit guard of `run` (lines 1187-1192): with existing docs and
no detected update, `run` returns before any file discovery; otherwise it
proceeds to `findSourceFiles`. -/
def runAfterBranch (bi : BranchInfo) : RunStep :=
  if bi.hasExistingDocs && !bi.needsUpdate then .stopEarly else .findFiles

/-- Apostrophe character, for transcribing user-facing message templates. -/
def apos : Char := Char.ofNat 39

/-- Template of the permission wrap in the outer catch of `commitAndPush`
(lines 1084-1091); the wrapped message ends with the underlying one. -/
def msg403 : Str :=
  strOf "GitHub push failed due to insufficient permissions. Please ensure your token has:\n- repo scope for private repositories\n- public_repo scope for public repositories\n- push access to the repository\n\nGenerate a new token with proper permissions at: https://github.com/settings/tokens/new\n\nError details: "

/-- Template of the authentication wrap (lines 1095-1098). -/
def msg401 : Str :=
  strOf "GitHub authentication failed. Your token may be invalid or expired. \nPlease generate a new token at: https://github.com/settings/tokens/new\n\nError details: "

/-- Template of the not-found wrap (lines 1102-1107). -/
def msg404 : Str :=
  strOf "Repository not found or you don" ++ apos ::
  strOf "t have access. Please verify:\n- Repository URL is correct\n- Repository exists\n- Your token has access to this repository\n\nError details: "

/-- Template of the rejected-push wrap (lines 1111-1118). -/
def msgRejected (branch : Str) : Str :=
  strOf "Push was rejected because the remote branch has newer commits. The system should have automatically handled this by pulling and retrying. If you" ++ apos ::
  strOf "re still seeing this error, there may be complex merge conflicts.\n\nYou can:\n1. Try generating documentation again (it will pull latest changes first)\n2. Manually resolve conflicts in the " ++
  (if branch = [] then strOf "docs-generation" else branch) ++
  strOf " branch\n3. Or delete the remote branch and try again\n\nError details: "

/-- The outer catch of `commitAndPush` (lines 1078-1122): recognized error
messages are wrapped in a remediation template that ends with the original
message (`Error details: ...`); everything else is rethrown unchanged.
Thrown values are modelled by their message strings. -/
def wrapPushError (branch m : Str) : Str :=
  if includesStr m (strOf "403") || includesStr m (strOf "denied") then
    msg403 ++ m
  else if includesStr m (strOf "401") || includesStr m (strOf "authentication") then
    msg401 ++ m
  else if includesStr m (strOf "404") then
    msg404 ++ m
  else if includesStr m (strOf "non-fast-forward") || includesStr m (strOf "rejected") then
    msgRejected branch ++ m
  else m

/-- Message of the error thrown when automatic conflict resolution fails
(line 1068); it ends with the retry error's message. -/
def resolveFailMsg (branch m : Str) : Str :=
  strOf "Failed to resolve merge conflicts automatically. Please manually resolve conflicts in the " ++
  branch ++ strOf " branch. Original error: " ++ m

instance {ε α : Type} [DecidableEq ε] [DecidableEq α] :
    DecidableEq (Except ε α) := fun a b =>
  match a, b with
  | .ok x, .ok y =>
    if h : x = y then isTrue (by rw [h])
    else isFalse (fun hc => h (by cases hc; rfl))
  | .error x, .error y =>
    if h : x = y then isTrue (by rw [h])
    else isFalse (fun hc => h (by cases hc; rfl))
  | .ok _, .error _ => isFalse (fun hc => Except.noConfusion hc)
  | .error _, .ok _ => isFalse (fun hc => Except.noConfusion hc)

/-- Outcomes of the git capability calls made by `commitAndPush`, as an
oracle.  `resolveRes` merges the outcome of the add-all/commit/push triple of
lines 1063-1065, whose failures the bare catch of line 1067 does not tell
apart. -/
structure PushEnv where
  /-- The checkout has a `docs` directory (line 986). -/
  docsDirExists : Bool
  /-- The checkout has `DOCUMENTATION_INDEX.md` (line 991). -/
  indexFileExists : Bool
  /-- `status().files` after staging (line 1002). -/
  statusFiles : List Str
  /-- Outcome of the documentation commit (line 1023). -/
  commitRes : Except Str Unit
  /-- Outcome of `push origin <branch> --set-upstream` (line 1039). -/
  push1 : Except Str Unit
  /-- Outcome of `pull origin <branch> --no-rebase` (line 1047). -/
  pullRes : Except Str Unit
  /-- Outcome of the retried push (line 1051). -/
  push2 : Except Str Unit
  /-- Combined outcome of `add .`, conflict-resolution commit, and final push
  (lines 1063-1065). -/
  resolveRes : Except Str Unit
deriving DecidableEq

/-- Git calls issued by `commitAndPush`, in order. -/
inductive GitAct
  | addDocs
  | addIndex
  | commitDocs
  | pushSetUpstream
  | pullNoRebase
  | pushRetry
  | addAll
  | commitResolve
  | pushFinal
deriving DecidableEq

/-- Result of `commitAndPush`: the trace of git calls, the overall outcome,
and whether a documentation commit was created. -/
structure PushResult where
  acts : List GitAct
  outcome : Except Str Unit
  committed : Bool
deriving DecidableEq

/-- Staging calls of lines 985-994: add each artifact that exists. -/
def stagingActs (e : PushEnv) : List GitAct :=
  (if e.docsDirExists then [GitAct.addDocs] else []) ++
  (if e.indexFileExists then [GitAct.addIndex] else [])

/-- Failure handling of the retried push (lines 1053-1072): a retry error
whose message mentions a conflict triggers `add .`, a resolution commit, and
one final push; any other retry error is rethrown (then wrapped by the outer
catch). -/
def handleRetryFailure (branch : Str) (e : PushEnv) (acts : List GitAct)
    (m2 : Str) : PushResult :=
  if includesStr m2 (strOf "conflict") then
    match e.resolveRes with
    | .ok _ =>
      { acts := acts ++ [.addAll, .commitResolve, .pushFinal],
        outcome := .ok (), committed := true }
    | .error _ =>
      { acts := acts ++ [.addAll, .commitResolve, .pushFinal],
        outcome := .error (wrapPushError branch (resolveFailMsg branch m2)),
        committed := true }
  else
    { acts := acts, outcome := .error (wrapPushError branch m2),
      committed := true }

/-- `commitAndPush` (lines 975-1124): stage existing artifacts, no-op when
nothing is staged or the status is clean, commit, push with upstream
tracking, and on a non-fast-forward rejection pull with `--no-rebase` and
retry once, falling back to blanket conflict resolution on a conflict.  The
git-user configuration (lines 1009-1014) and remote re-configuration (lines
1027-1035) are inert no-fail steps and are not traced. -/
def commitAndPush (branch : Str) (e : PushEnv) : PushResult :=
  let acts0 := stagingActs e
  let hasFiles := e.docsDirExists || e.indexFileExists
  if !hasFiles then { acts := acts0, outcome := .ok (), committed := false }
  else if e.statusFiles.length = 0 then
    { acts := acts0, outcome := .ok (), committed := false }
  else
    match e.commitRes with
    | .error m =>
      { acts := acts0 ++ [.commitDocs],
        outcome := .error (wrapPushError branch m), committed := false }
    | .ok _ =>
      let acts1 := acts0 ++ [.commitDocs]
      match e.push1 with
      | .ok _ =>
        { acts := acts1 ++ [.pushSetUpstream], outcome := .ok (),
          committed := true }
      | .error m1 =>
        if includesStr m1 (strOf "non-fast-forward") then
          match e.pullRes with
          | .ok _ =>
            match e.push2 with
            | .ok _ =>
              { acts := acts1 ++ [.pushSetUpstream, .pullNoRebase, .pushRetry],
                outcome := .ok (), committed := true }
            | .error m2 =>
              handleRetryFailure branch e
                (acts1 ++ [.pushSetUpstream, .pullNoRebase, .pushRetry]) m2
          | .error m2 =>
            handleRetryFailure branch e
              (acts1 ++ [.pushSetUpstream, .pullNoRebase]) m2
        else
          { acts := acts1 ++ [.pushSetUpstream],
            outcome := .error (wrapPushError branch m1), committed := true }

/-- Index entry as built by `generateIndex` and `readExistingIndex`:
`{ fileName, entry, filePath }`. -/
structure IndexEntry where
  fileName : Str
  entry : Str
  filePath : Str
deriving DecidableEq

/-- The index registry: directory key to its entry array, in insertion order
(model of the JavaScript `Record<string, Array<...>>`, whose keys iterate in
insertion order). -/
abbrev IndexMap := List (Str × List IndexEntry)

/-- Lookup of a directory key. -/
def lookupDir : IndexMap → Str → Option (List IndexEntry)
  | [], _ => none
  | (k, es) :: rest, d => if k = d then some es else lookupDir rest d

/-- First entry with the given file name. -/
def findEntry? (fn : Str) : List IndexEntry → Option IndexEntry
  | [] => none
  | e :: es => if e.fileName = fn then some e else findEntry? fn es

/-- The mapping keyed by (directory, fileName). -/
def lookupEntry (m : IndexMap) (d fn : Str) : Option IndexEntry :=
  (lookupDir m d).bind (findEntry? fn)

/-- Model of `if (!entries[dir]) entries[dir] = []; entries[dir].push(e)`:
append to the directory's array, creating the key (at the end) if absent. -/
def pushEntry : IndexMap → Str → IndexEntry → IndexMap
  | [], d, e => [(d, [e])]
  | (k, es) :: rest, d, e =>
    if k = d then (k, es ++ [e]) :: rest else (k, es) :: pushEntry rest d e

/-- Attempt of the regex `- \*\*\[([^\]]+)\]` at the head of the line: the
literal `- **[`, then a nonempty run free of `]`, then `]`. -/
def matchBracketAt (l : Str) : Option Str :=
  if startsWithStr (strOf "- **[") l then
    let after := l.drop 5
    let nm := after.takeWhile (fun c => decide (c ≠ ']'))
    if nm ≠ [] && after.drop nm.length ≠ [] then some nm else none
  else none

/-- Model of the `line.match` call of line 884 with the slash-delimited regex
`- \*\*\[([^\]]+)\]`: the regex engine tries the pattern at every position,
left to right. -/
def scanBracketName : Str → Option Str
  | [] => none
  | c :: rest =>
    match matchBracketAt (c :: rest) with
    | some nm => some nm
    | none => scanBracketName rest

/-- JavaScript truthiness of the `currentDir` variable (`null` and the empty
string are falsy). -/
def truthyDir : Option Str → Bool
  | none => false
  | some d => !d.isEmpty

/-- One line of the `readExistingIndex` parser loop (lines 878-899), acting
on the state (currentDir, accumulated entries):
a `### .../` line (via `slice(4, -1)`) or a `### Root Directory` line sets
the current directory; a `- **[` line under a truthy current directory is
recorded with the captured file name, the raw line, and a file path
reconstructed as `dir/fileName` (bare `fileName` under `Root`). -/
def parseIndexStep (st : Option Str × IndexMap) (line : Str) :
    Option Str × IndexMap :=
  if startsWithStr (strOf "### ") line && endsWithStr (strOf "/") line then
    (some ((line.drop 4).dropLast), st.2)
  else if startsWithStr (strOf "### Root Directory") line then
    (some (strOf "Root"), st.2)
  else if startsWithStr (strOf "- **[") line && truthyDir st.1 then
    match st.1, scanBracketName line with
    | some d, some fn =>
      (st.1, pushEntry st.2 d
        { fileName := fn, entry := line,
          filePath := if d = strOf "Root" then fn else d ++ '/' :: fn })
    | _, _ => (st.1, st.2)
  else (st.1, st.2)

/-- `readExistingIndex` (lines 866-905) on the file's lines. -/
def parseIndexLines (lines : List Str) : IndexMap :=
  (lines.foldl parseIndexStep (none, [])).2

/-- Decimal digit character. -/
def natDigit (n : Nat) : Char := Char.ofNat (48 + n)

/-- Decimal rendering of a natural number, by fuel (structural recursion so
that concrete evaluation reduces). -/
def natToStrAux : Nat → Nat → Str
  | 0, _ => []
  | fuel + 1, n =>
    if n < 10 then [natDigit n]
    else natToStrAux fuel (n / 10) ++ [natDigit (n % 10)]

/-- Decimal rendering of a natural number. -/
def natToStr (n : Nat) : Str := natToStrAux (n + 1) n

/-- Total entry count of the index (line 927). -/
def totalFiles (entries : IndexMap) : Nat :=
  entries.foldl (fun s p => s + p.2.length) 0

/-- Fixed preamble of the rendered index (lines 929-938). -/
def indexPreamble (total : Nat) : List Str :=
  [strOf "# Documentation Index",
   [],
   strOf "This is the complete documentation index for the project, generated automatically from the source code.",
   [],
   strOf "📊 **Total documented files**: " ++ natToStr total,
   [],
   strOf "## Quick Navigation",
   []]

/-- Fixed footer of the rendered index (lines 958-964); the timestamp is a
caller-supplied oracle (`new Date().toLocaleString()` yields no newline). -/
def indexFooter (now : Str) : List Str :=
  [strOf "---",
   [],
   strOf "📝 *This documentation was generated automatically using AI-powered analysis of the source code.*",
   [],
   strOf "🔄 *Last updated: " ++ now ++ strOf "*"]

/-- One directory section of the rendered index (lines 942-956): header
(`### Root Directory` for the `Root` key, else `### <dir>/`), a blank line,
the entry lines sorted by file name, a blank line. -/
def renderDirBlock (d : Str) (es : List IndexEntry) : List Str :=
  (if d = strOf "Root" then strOf "### Root Directory"
   else strOf "### " ++ d ++ strOf "/") ::
  [] ::
  ((sortByB (fun a b => strLeB a.fileName b.fileName) es).map IndexEntry.entry
    ++ [[]])

/-- `writeIndexFile` (lines 926-973) as the list of lines it writes:
preamble with the entry count, directory sections in sorted key order, and
the footer. -/
def renderIndexLines (now : Str) (entries : IndexMap) : List Str :=
  indexPreamble (totalFiles entries) ++
  ((sortByB (fun a b => strLeB a.1 b.1) entries).map
    (fun p => renderDirBlock p.1 p.2)).flatten ++
  indexFooter now

/-- Doc link derived for a documented file (line 820): the template string
`docs/<dirname>/<name>.md` (no path normalization). -/
def mkDocLink (f : Str) : Str :=
  strOf "docs/" ++ dirnameOf f ++ '/' :: (parseNameOf f ++ strOf ".md")

/-- Directory key of a documented file (line 828): its dirname, with `.`
replaced by `Root`. -/
def dirKeyOf (f : Str) : Str :=
  if dirnameOf f = strOf "." then strOf "Root" else dirnameOf f

/-- Index entry built for a newly documented file (lines 820-838), given the
overview text extracted from its generated doc (empty when unavailable). -/
def mkIndexEntry (f : Str) (overview : Str) : IndexEntry :=
  let fileName := parseNameOf f
  let fileLink := '[' :: fileName ++ ']' :: '(' :: mkDocLink f ++ [')']
  let summary := if overview = [] then [] else strOf " - " ++ overview
  { fileName := fileName,
    entry := strOf "- **" ++ fileLink ++ strOf "**" ++ summary,
    filePath := f }

/-- Grouping of the newly documented files by directory key (lines 817-839);
`ovOf` is the `getFileOverview` oracle, applied to the doc link. -/
def buildNewEntries (ovOf : Str → Str) (documentedFiles : List Str) :
    IndexMap :=
  documentedFiles.foldl
    (fun m f => pushEntry m (dirKeyOf f) (mkIndexEntry f (ovOf (mkDocLink f))))
    []

/-- Replace the first entry with the same file name, else append — the
`findIndex`-and-assign-else-push upsert of lines 848-860. -/
def upsertEntryList (e : IndexEntry) : List IndexEntry → List IndexEntry
  | [] => [e]
  | x :: xs => if x.fileName = e.fileName then e :: xs else x :: upsertEntryList e xs

/-- Key presence test. -/
def hasKey (m : IndexMap) (d : Str) : Bool := m.any (fun p => p.1 = d)

/-- Model of `if (!mergedEntries[dirPath]) mergedEntries[dirPath] = []`
(lines 844-846). -/
def ensureKey (m : IndexMap) (d : Str) : IndexMap :=
  if hasKey m d then m else m ++ [(d, [])]

/-- Upsert of one entry into one directory's array (lines 848-860). -/
def upsertInDir (m : IndexMap) (d : Str) (e : IndexEntry) : IndexMap :=
  m.map (fun p => if p.1 = d then (p.1, upsertEntryList e p.2) else p)

/-- The merge loop of `generateIndex` (lines 842-861): for each new
directory group, ensure the key, then upsert each file's entry. -/
def mergeIndexEntries (existing newEntries : IndexMap) : IndexMap :=
  newEntries.foldl
    (fun merged p => p.2.foldl (fun m e => upsertInDir m p.1 e) (ensureKey merged p.1))
    existing

/-- `generateIndex` (lines 810-864) as the resulting index mapping: merge the
freshly built entries into the parsed existing index. -/
def generateIndexMap (ovOf : Str → Str) (existing : IndexMap)
    (documentedFiles : List Str) : IndexMap :=
  mergeIndexEntries existing (buildNewEntries ovOf documentedFiles)

/-- The entry the parser reconstructs from a rendered entry of directory `d`:
same file name and raw line, but the file path re-derived as `d/fileName`
(bare `fileName` under `Root`) — the source extension is not recoverable from
the rendered line. -/
def reparseE (d : Str) (e : IndexEntry) : IndexEntry :=
  { fileName := e.fileName, entry := e.entry,
    filePath := if d = strOf "Root" then e.fileName else d ++ '/' :: e.fileName }

/-- Canonical form produced by parsing a rendered index: directories with no
entries vanish, each surviving directory's entries are sorted by file name
and reconstructed by `reparseE`. -/
def canonEntries (m : IndexMap) : IndexMap :=
  (m.filter (fun p => !p.2.isEmpty)).map
    (fun p =>
      (p.1, (sortByB (fun a b => strLeB a.fileName b.fileName) p.2).map
        (reparseE p.1)))

/-- The failure, if any, of the pull-then-repush recovery block of lines
1045-1052 (the first of the pull and the retried push to fail). -/
def retryErrOf (e : PushEnv) : Option Str :=
  match e.pullRes with
  | .error m => some m
  | .ok _ =>
    match e.push2 with
    | .error m => some m
    | .ok _ => none

/-- Occurrence of a (directory, fileName) key somewhere in an index mapping
(possibly several times, possibly shadowed). -/
def occursIn (m : IndexMap) (x fn : Str) : Prop :=
  ∃ p ∈ m, p.1 = x ∧ ∃ e ∈ p.2, e.fileName = fn

theorem memStr_iff_mem (x : Str) (l : List Str) : memStr x l = true ↔ x ∈ l := by
  induction l with
  | nil => simp [memStr]
  | cons y ys ih =>
    simp only [memStr]
    by_cases h : y = x
    · simp [h]
    · simp only [if_neg h, ih, List.mem_cons]
      constructor
      · exact Or.inr
      · rintro (hx | hx)
        · exact absurd hx.symm h
        · exact hx

theorem foldl_filter_push (P : Str → Bool) (l acc : List Str) :
    l.foldl (fun a f => if P f then a ++ [f] else a) acc = acc ++ l.filter P := by
  induction l generalizing acc with
  | nil => simp
  | cons x xs ih =>
    by_cases h : P x <;> simp [List.filter_cons, h, ih]

theorem findInc_first (fs : FS) (opts : DocOptions) (changed new : List Str) :
    (findSourceFilesIncremental fs opts changed new).1 =
      sortStr ((changed ++ new).filter
        (fun f => pathExistsFS fs f && isSupportedFile opts f)) := by
  have hstep :
      (fun (acc : List Str) file =>
        if pathExistsFS fs file && isSupportedFile opts file then
          if documentationExists fs file then
            if opts.overwrite then acc ++ [file] else acc ++ [file]
          else acc ++ [file]
        else acc) =
      (fun (acc : List Str) file =>
        if pathExistsFS fs file && isSupportedFile opts file then acc ++ [file]
        else acc) := by
    funext acc file
    simp only [ite_self]
  simp only [findSourceFilesIncremental, hstep, foldl_filter_push,
    List.filter_append, List.nil_append]

/-- C10: a documentation artifact written by `saveDocumentation` for a source
path is found by `documentationExists` for the same path: both derive the
identical `docs/<dirname>/<name>.md` artifact path. -/
theorem saveDocumentation_then_documentationExists :
    ∀ (fs : FS) (f c : Str),
      documentationExists (saveDocumentation fs f c) f = true := by
  intro fs f c
  simp [saveDocumentation, documentationExists, pathExistsFS]

/-- C6: `commitAndPush` is a no-op without error — no commit created, no
commit call issued — when neither the docs directory nor the index file
exists, or when the post-staging status lists no changed files. -/
theorem commitAndPush_noop (branch : Str) (e : PushEnv)
    (h : (e.docsDirExists = false ∧ e.indexFileExists = false) ∨
         e.statusFiles = []) :
    (commitAndPush branch e).outcome = .ok () ∧
    (commitAndPush branch e).committed = false ∧
    GitAct.commitDocs ∉ (commitAndPush branch e).acts := by
  rcases h with ⟨h1, h2⟩ | h
  · simp [commitAndPush, h1, h2, stagingActs]
  · by_cases hd : e.docsDirExists <;> by_cases hi : e.indexFileExists <;>
      simp [commitAndPush, stagingActs, h, hd, hi]

theorem commitAndPush_noop_witness :
    (commitAndPush (strOf "docs-generation")
      { docsDirExists := false, indexFileExists := false,
        statusFiles := [strOf "f.md"], commitRes := .ok (), push1 := .ok (),
        pullRes := .ok (), push2 := .ok (), resolveRes := .ok () }).outcome
      = .ok () ∧
    (commitAndPush (strOf "docs-generation")
      { docsDirExists := false, indexFileExists := false,
        statusFiles := [strOf "f.md"], commitRes := .ok (), push1 := .ok (),
        pullRes := .ok (), push2 := .ok (), resolveRes := .ok () }).committed
      = false ∧
    GitAct.commitDocs ∉ (commitAndPush (strOf "docs-generation")
      { docsDirExists := false, indexFileExists := false,
        statusFiles := [strOf "f.md"], commitRes := .ok (), push1 := .ok (),
        pullRes := .ok (), push2 := .ok (), resolveRes := .ok () }).acts :=
  commitAndPush_noop _ _ (Or.inl ⟨rfl, rfl⟩)

/-- C9 (amended): the classifier is total, and it accepts exactly the paths
whose lowercased extension is in the fixed allow-list — the exclusion globs
play no role in it. -/
theorem isSupportedFile_total_extension_only :
    ∀ p : Str,
      (isSupportedFile defaultOptions p = true ∨
       isSupportedFile defaultOptions p = false) ∧
      (isSupportedFile defaultOptions p = true ↔
        toLowerStr (extnameOf p) ∈ defaultOptions.supportedExtensions) := by
  intro p
  refine ⟨?_, ?_⟩
  · cases h : isSupportedFile defaultOptions p
    · exact Or.inr rfl
    · exact Or.inl rfl
  · simpa [isSupportedFile] using
      memStr_iff_mem (toLowerStr (extnameOf p)) defaultOptions.supportedExtensions

/-- C9 (counterexample): `docs/a.ts` matches the exclusion table (the bare
`docs` pattern — the documentation output directory), yet `isSupportedFile`
accepts it, so the classifier does not implement allow-list-minus-exclusions
as claimed. -/
theorem isSupportedFile_accepts_excluded_path :
    isSupportedFile defaultOptions (strOf "docs/a.ts") = true ∧
    isDocumentableSpec defaultOptions (strOf "docs/a.ts") = false := by decide

/-- C4 (amended): in incremental mode the planner emits one work item per
occurrence of an on-disk, supported path in `changedFiles` followed by
`newFiles` (sorted, with no `existingDocs`); the `overwrite` flag has no
effect on the result; and the caller labels every member of `changedFiles`
as an update by list membership. -/
theorem findSourceFilesIncremental_union_spec :
    ∀ (fs : FS) (opts : DocOptions) (changed new : List Str),
      (findSourceFilesIncremental fs opts changed new).1 =
        sortStr ((changed ++ new).filter
          (fun f => pathExistsFS fs f && isSupportedFile opts f)) ∧
      (findSourceFilesIncremental fs opts changed new).2 = [] ∧
      (∀ b, (findSourceFilesIncremental fs { opts with overwrite := b }
          changed new).1 =
        (findSourceFilesIncremental fs opts changed new).1) ∧
      (∀ f, f ∈ changed → actionLabel changed new f = DocAction.updating) := by
  intro fs opts changed new
  refine ⟨findInc_first fs opts changed new, rfl, ?_, ?_⟩
  · intro b
    rw [findInc_first, findInc_first]
    rfl
  · intro f hf
    simp [actionLabel, (memStr_iff_mem f changed).mpr hf]

theorem findSourceFilesIncremental_union_spec_witness :
    (findSourceFilesIncremental [(strOf "a.ts", strOf "code")] defaultOptions
        [strOf "a.ts"] [strOf "b.ts"]).1 =
      sortStr (([strOf "a.ts"] ++ [strOf "b.ts"]).filter
        (fun f => pathExistsFS [(strOf "a.ts", strOf "code")] f &&
          isSupportedFile defaultOptions f)) ∧
    (findSourceFilesIncremental [(strOf "a.ts", strOf "code")] defaultOptions
        [strOf "a.ts"] [strOf "b.ts"]).2 = [] ∧
    (findSourceFilesIncremental [(strOf "a.ts", strOf "code")]
        { defaultOptions with overwrite := true }
        [strOf "a.ts"] [strOf "b.ts"]).1 =
      (findSourceFilesIncremental [(strOf "a.ts", strOf "code")] defaultOptions
        [strOf "a.ts"] [strOf "b.ts"]).1 ∧
    actionLabel [strOf "a.ts"] [strOf "b.ts"] (strOf "a.ts")
      = DocAction.updating := by
  obtain ⟨h1, h2, h3, h4⟩ := findSourceFilesIncremental_union_spec
    [(strOf "a.ts", strOf "code")] defaultOptions [strOf "a.ts"] [strOf "b.ts"]
  exact ⟨h1, h2, h3 true, h4 (strOf "a.ts") (List.mem_cons.mpr (Or.inl rfl))⟩

/-- C4 (counterexample): a path listed in both `changedFiles` and `newFiles`
that exists on disk and is supported is emitted twice, not once, and it is
labelled an update by membership in `changedFiles` even though no doc
artifact exists (the claim would demand a single `Create` item). -/
theorem findSourceFilesIncremental_duplicate_emission :
    (findSourceFilesIncremental [(strOf "a.ts", strOf "code")] defaultOptions
        [strOf "a.ts"] [strOf "a.ts"]).1 = [strOf "a.ts", strOf "a.ts"] ∧
    documentationExists [(strOf "a.ts", strOf "code")] (strOf "a.ts") = false ∧
    actionLabel [strOf "a.ts"] [strOf "a.ts"] (strOf "a.ts") =
      DocAction.updating := by decide

theorem wrapPushError_suffix (branch m : Str) :
    ∃ pre, wrapPushError branch m = pre ++ m := by
  unfold wrapPushError
  repeat' split
  all_goals first
    | exact ⟨_, rfl⟩
    | exact ⟨[], rfl⟩

theorem resolveFailMsg_suffix (branch m : Str) :
    ∃ pre, resolveFailMsg branch m = pre ++ m := by
  refine ⟨strOf "Failed to resolve merge conflicts automatically. Please manually resolve conflicts in the " ++
    branch ++ strOf " branch. Original error: ", ?_⟩
  simp [resolveFailMsg, List.append_assoc]

/-- C7: when the first push is rejected with a non-fast-forward message,
`commitAndPush` pulls with `--no-rebase` and retries the push exactly once;
if that recovery fails with a conflict-classified error it adds the whole
working tree, commits, and pushes one final time; and any remaining failure
surfaces as an error whose message ends with the underlying retry error's
message. -/
theorem commitAndPush_push_retry (branch : Str) (e : PushEnv) (m1 : Str)
    (hdocs : e.docsDirExists = true)
    (hstatus : e.statusFiles ≠ [])
    (hcommit : e.commitRes = .ok ())
    (hpush1 : e.push1 = .error m1)
    (hnff : includesStr m1 (strOf "non-fast-forward") = true) :
    (e.pullRes = .ok () → e.push2 = .ok () →
      commitAndPush branch e =
        { acts := stagingActs e ++
            [.commitDocs, .pushSetUpstream, .pullNoRebase, .pushRetry],
          outcome := .ok (), committed := true }) ∧
    (∀ m2, retryErrOf e = some m2 →
      includesStr m2 (strOf "conflict") = false →
      ∃ pre, (commitAndPush branch e).outcome = .error (pre ++ m2)) ∧
    (∀ m2, retryErrOf e = some m2 →
      includesStr m2 (strOf "conflict") = true →
      (e.resolveRes = .ok () →
        (commitAndPush branch e).outcome = .ok () ∧
        ∃ pre, (commitAndPush branch e).acts =
          pre ++ [.addAll, .commitResolve, .pushFinal]) ∧
      (∀ m3, e.resolveRes = .error m3 →
        ∃ pre, (commitAndPush branch e).outcome = .error (pre ++ m2))) := by
  have hlen : (e.statusFiles.length = 0) = False := by
    simp [List.length_eq_zero, hstatus]
  refine ⟨?_, ?_, ?_⟩
  · intro hpull hpush2
    simp [commitAndPush, hdocs, hlen, hcommit, hpush1, hnff, hpull, hpush2,
      List.append_assoc]
  · intro m2 hret hconf
    cases hp : e.pullRes with
    | error mp =>
      rw [retryErrOf, hp] at hret
      cases hret
      simp [commitAndPush, hdocs, hlen, hcommit, hpush1, hnff, hp,
        handleRetryFailure, hconf]
      exact wrapPushError_suffix branch m2
    | ok u =>
      cases u
      cases hq : e.push2 with
      | error mq =>
        rw [retryErrOf, hp, hq] at hret
        cases hret
        simp [commitAndPush, hdocs, hlen, hcommit, hpush1, hnff, hp, hq,
          handleRetryFailure, hconf]
        exact wrapPushError_suffix branch m2
      | ok u2 =>
        cases u2
        rw [retryErrOf, hp, hq] at hret
        cases hret
  · intro m2 hret hconf
    cases hp : e.pullRes with
    | error mp =>
      rw [retryErrOf, hp] at hret
      cases hret
      constructor
      · intro hres
        simp only [commitAndPush, hdocs, hlen, hcommit, hpush1, hnff, hp,
          handleRetryFailure, hconf, hres]
        refine ⟨rfl, ⟨stagingActs e ++
          [.commitDocs, .pushSetUpstream, .pullNoRebase], ?_⟩⟩
        simp
      · intro m3 hres
        simp [commitAndPush, hdocs, hlen, hcommit, hpush1, hnff, hp,
          handleRetryFailure, hconf, hres]
        obtain ⟨p1, hw⟩ := wrapPushError_suffix branch (resolveFailMsg branch m2)
        obtain ⟨p2, hr⟩ := resolveFailMsg_suffix branch m2
        exact ⟨p1 ++ p2, by rw [hw, hr, List.append_assoc]⟩
    | ok u =>
      cases u
      cases hq : e.push2 with
      | error mq =>
        rw [retryErrOf, hp, hq] at hret
        cases hret
        constructor
        · intro hres
          simp only [commitAndPush, hdocs, hlen, hcommit, hpush1, hnff, hp,
            hq, handleRetryFailure, hconf, hres]
          refine ⟨rfl, ⟨stagingActs e ++
            [.commitDocs, .pushSetUpstream, .pullNoRebase, .pushRetry], ?_⟩⟩
          simp
        · intro m3 hres
          simp [commitAndPush, hdocs, hlen, hcommit, hpush1, hnff, hp, hq,
            handleRetryFailure, hconf, hres]
          obtain ⟨p1, hw⟩ := wrapPushError_suffix branch (resolveFailMsg branch m2)
          obtain ⟨p2, hr⟩ := resolveFailMsg_suffix branch m2
          exact ⟨p1 ++ p2, by rw [hw, hr, List.append_assoc]⟩
      | ok u2 =>
        cases u2
        rw [retryErrOf, hp, hq] at hret
        cases hret

theorem commitAndPush_push_retry_witness :
    commitAndPush (strOf "docs-generation")
      { docsDirExists := true, indexFileExists := false,
        statusFiles := [strOf "docs/a.md"], commitRes := .ok (),
        push1 := .error (strOf "failed to push: non-fast-forward"),
        pullRes := .ok (), push2 := .ok (), resolveRes := .ok () } =
    { acts := stagingActs
        { docsDirExists := true, indexFileExists := false,
          statusFiles := [strOf "docs/a.md"], commitRes := .ok (),
          push1 := .error (strOf "failed to push: non-fast-forward"),
          pullRes := .ok (), push2 := .ok (), resolveRes := .ok () } ++
        [.commitDocs, .pushSetUpstream, .pullNoRebase, .pushRetry],
      outcome := .ok (), committed := true } :=
  (commitAndPush_push_retry (strOf "docs-generation")
    { docsDirExists := true, indexFileExists := false,
      statusFiles := [strOf "docs/a.md"], commitRes := .ok (),
      push1 := .error (strOf "failed to push: non-fast-forward"),
      pullRes := .ok (), push2 := .ok (), resolveRes := .ok () }
    (strOf "failed to push: non-fast-forward") rfl (by decide) rfl rfl
    (by decide)).1 rfl rfl

/-- C1: on a conflicting concurrent edit of `docs/a.md` the merge step makes
no commit, leaves the path conflicted with conflict-marker content — not the
documentation branch's version — and discards the git failure (the
`git merge` call rejects on conflict, so the staging loop of lines 502-507
never runs and the `catch` of line 512 swallows the error, contradicting the
code's own stated intent of preferring the docs-branch version). -/
theorem mergeSection_conflict_keeps_markers_uncommitted :
    (mergeSection [(strOf "docs/a.md", strOf "base")]
      [(strOf "docs/a.md", strOf "ours-doc")]
      [(strOf "docs/a.md", strOf "theirs-doc")]).committed = false ∧
    (mergeSection [(strOf "docs/a.md", strOf "base")]
      [(strOf "docs/a.md", strOf "ours-doc")]
      [(strOf "docs/a.md", strOf "theirs-doc")]).conflicted
      = [strOf "docs/a.md"] ∧
    (mergeSection [(strOf "docs/a.md", strOf "base")]
      [(strOf "docs/a.md", strOf "ours-doc")]
      [(strOf "docs/a.md", strOf "theirs-doc")]).errorSwallowed = true ∧
    lookupT (mergeSection [(strOf "docs/a.md", strOf "base")]
      [(strOf "docs/a.md", strOf "ours-doc")]
      [(strOf "docs/a.md", strOf "theirs-doc")]).tree (strOf "docs/a.md")
      ≠ some (strOf "ours-doc") := by decide

/-- C3: a merge conflict on the source path `src/a.ts` — one not confined to
documentation-output paths — does not propagate out of
`mergeFromMainBranch`: the function still returns successfully while the
working tree is left unmerged (conflicted, uncommitted), because the catch of
lines 512-514 swallows every merge-step failure. -/
theorem mergeFromMainBranch_swallows_merge_errors :
    mergeFromMainBranch defaultOptions
      { grepDocCommit := some (strOf "c0"), docsTouchCommit := none,
        diffRaw := [strOf "M\tsrc/a.ts"],
        base := [(strOf "src/a.ts", strOf "base")],
        ours := [(strOf "src/a.ts", strOf "ours")],
        theirs := [(strOf "src/a.ts", strOf "theirs")] } =
    .ok { changedFiles := [strOf "src/a.ts"], newFiles := [],
          needsUpdate := true,
          merge := { tree := [(strOf "src/a.ts",
                       conflictContent (some (strOf "ours"))
                         (some (strOf "theirs")))],
                     committed := false, conflicted := [strOf "src/a.ts"],
                     errorSwallowed := true } } := by decide

/-- C2: with an existing remote docs branch whose checkout has only an index
file (docs present) and a history in which no documentation commit can be
found, change detection returns empty sets — but `needsUpdate` comes back
`false`, so `run` stops early instead of falling back to a full repository
scan (contradicting the code's own log of line 488, "will analyze all
files"). -/
theorem nullLastDocCommit_stops_run :
    getLastDocumentationCommit
      { grepDocCommit := none, docsTouchCommit := none,
        diffRaw := [strOf "M\tsrc/a.ts"], base := [], ours := [],
        theirs := [] } = none ∧
    createDocumentationBranch defaultOptions
      { remoteBranchExists := true, localBranchExists := false,
        docsDirExists := false, docsDirMdFiles := [], indexFileExists := true,
        mergeEnv := { grepDocCommit := none, docsTouchCommit := none,
                      diffRaw := [strOf "M\tsrc/a.ts"], base := [],
                      ours := [], theirs := [] } } =
      .ok { isExistingBranch := true, hasExistingDocs := true,
            changedFiles := [], newFiles := [], needsUpdate := false } ∧
    runAfterBranch { isExistingBranch := true, hasExistingDocs := true,
                     changedFiles := [], newFiles := [],
                     needsUpdate := false }
      = RunStep.stopEarly := by decide


theorem findEntry?_upsertEntryList_ne (e : IndexEntry) (l : List IndexEntry)
    (fn : Str) (h : fn ≠ e.fileName) :
    findEntry? fn (upsertEntryList e l) = findEntry? fn l := by
  have hne : ¬(e.fileName = fn) := fun hh => h hh.symm
  induction l with
  | nil => simp [upsertEntryList, findEntry?, hne]
  | cons x xs ih =>
    by_cases hx : x.fileName = e.fileName
    · simp [upsertEntryList, hx, findEntry?, hne]
    · simp [upsertEntryList, hx, findEntry?, ih]

theorem findEntry?_upsertEntryList_self (e : IndexEntry) (l : List IndexEntry) :
    findEntry? e.fileName (upsertEntryList e l) = some e := by
  induction l with
  | nil => simp [upsertEntryList, findEntry?]
  | cons x xs ih =>
    by_cases hx : x.fileName = e.fileName
    · simp [upsertEntryList, hx, findEntry?]
    · simp [upsertEntryList, hx, findEntry?, ih]

theorem mem_map_fileName_upsertEntryList (e : IndexEntry) (l : List IndexEntry)
    (fn : Str) (h : fn ∈ (upsertEntryList e l).map IndexEntry.fileName) :
    fn ∈ l.map IndexEntry.fileName ∨ fn = e.fileName := by
  induction l with
  | nil => simpa [upsertEntryList] using h
  | cons x xs ih =>
    by_cases hx : x.fileName = e.fileName
    · simp only [upsertEntryList, if_pos hx, List.map_cons, List.mem_cons] at h
      rcases h with h | h
      · exact Or.inr h
      · exact Or.inl (List.mem_cons.mpr (Or.inr h))
    · simp only [upsertEntryList, if_neg hx, List.map_cons, List.mem_cons] at h
      rcases h with h | h
      · exact Or.inl (List.mem_cons.mpr (Or.inl h))
      · rcases ih h with h2 | h2
        · exact Or.inl (List.mem_cons.mpr (Or.inr h2))
        · exact Or.inr h2

theorem nodup_upsertEntryList (e : IndexEntry) (l : List IndexEntry)
    (h : (l.map IndexEntry.fileName).Nodup) :
    ((upsertEntryList e l).map IndexEntry.fileName).Nodup := by
  induction l with
  | nil => simp [upsertEntryList]
  | cons x xs ih =>
    simp only [List.map_cons, List.nodup_cons] at h
    by_cases hx : x.fileName = e.fileName
    · simp only [upsertEntryList, if_pos hx, List.map_cons, List.nodup_cons]
      refine ⟨?_, h.2⟩
      rw [← hx]
      exact h.1
    · simp only [upsertEntryList, if_neg hx, List.map_cons, List.nodup_cons]
      refine ⟨?_, ih h.2⟩
      intro hc
      rcases mem_map_fileName_upsertEntryList e xs x.fileName hc with h2 | h2
      · exact h.1 h2
      · exact hx h2

theorem lookupDir_upsertInDir (m : IndexMap) (d : Str) (e : IndexEntry)
    (x : Str) :
    lookupDir (upsertInDir m d e) x =
      if x = d then (lookupDir m d).map (upsertEntryList e)
      else lookupDir m x := by
  induction m with
  | nil => by_cases hx : x = d <;> simp [upsertInDir, lookupDir, hx]
  | cons p rest ih =>
    simp only [upsertInDir, List.map_cons] at ih ⊢
    by_cases hpd : p.1 = d
    · rw [if_pos hpd]
      by_cases hx : x = d
      · have hpx : p.1 = x := by rw [hpd, hx]
        simp only [lookupDir, if_pos hpx, if_pos hx, if_pos hpd]
        rfl
      · have hpx : ¬(p.1 = x) := fun hc => hx (hc ▸ hpd)
        simp only [lookupDir, if_neg hpx, if_neg hx]
        rw [ih, if_neg hx]
    · rw [if_neg hpd]
      by_cases hpx : p.1 = x
      · have hx : ¬(x = d) := fun hc => hpd (by rw [hpx, hc])
        simp only [lookupDir, if_pos hpx, if_neg hx]
      · simp only [lookupDir, if_neg hpx]
        rw [ih]
        by_cases hx : x = d
        · rw [if_pos hx, if_pos hx, if_neg hpd]
        · rw [if_neg hx, if_neg hx]

theorem map_fst_upsertInDir (m : IndexMap) (d : Str) (e : IndexEntry) :
    (upsertInDir m d e).map Prod.fst = m.map Prod.fst := by
  induction m with
  | nil => rfl
  | cons p rest ih =>
    simp only [upsertInDir, List.map_cons] at ih ⊢
    by_cases hpd : p.1 = d
    · rw [if_pos hpd]
      simp [ih]
    · rw [if_neg hpd]
      simp [ih]

theorem hasKey_iff (m : IndexMap) (d : Str) :
    hasKey m d = true ↔ d ∈ m.map Prod.fst := by
  simp only [hasKey, List.any_eq_true, decide_eq_true_eq, List.mem_map]

theorem lookupDir_append (m1 m2 : IndexMap) (x : Str) :
    lookupDir (m1 ++ m2) x =
      match lookupDir m1 x with
      | some es => some es
      | none => lookupDir m2 x := by
  induction m1 with
  | nil => simp [lookupDir]
  | cons p rest ih =>
    by_cases hp : p.1 = x <;> simp [lookupDir, hp, ih]

theorem lookupEntry_ensureKey (m : IndexMap) (d x fn : Str) :
    lookupEntry (ensureKey m d) x fn = lookupEntry m x fn := by
  unfold ensureKey
  split
  · rfl
  · unfold lookupEntry
    rw [lookupDir_append]
    cases hl : lookupDir m x with
    | some es => simp
    | none =>
      by_cases hx : d = x <;> simp [lookupDir, hx, findEntry?]

theorem map_fst_ensureKey (m : IndexMap) (d : Str) :
    (ensureKey m d).map Prod.fst =
      if hasKey m d then m.map Prod.fst else m.map Prod.fst ++ [d] := by
  unfold ensureKey
  split <;> simp_all

theorem nodup_map_fst_ensureKey (m : IndexMap) (d : Str)
    (h : (m.map Prod.fst).Nodup) :
    ((ensureKey m d).map Prod.fst).Nodup := by
  rw [map_fst_ensureKey]
  split
  · exact h
  · rename_i hk
    have hd : d ∉ m.map Prod.fst := fun hc => hk ((hasKey_iff m d).mpr hc)
    simp [List.nodup_append, h, hd]

theorem names_nodup_upsertInDir (m : IndexMap) (d : Str) (e : IndexEntry)
    (h : ∀ p ∈ m, (p.2.map IndexEntry.fileName).Nodup) :
    ∀ p ∈ upsertInDir m d e, (p.2.map IndexEntry.fileName).Nodup := by
  intro p hp
  simp only [upsertInDir, List.mem_map] at hp
  obtain ⟨q, hq, rfl⟩ := hp
  by_cases hqd : q.1 = d
  · rw [if_pos hqd]
    exact nodup_upsertEntryList e q.2 (h q hq)
  · rw [if_neg hqd]
    exact h q hq

theorem names_nodup_ensureKey (m : IndexMap) (d : Str)
    (h : ∀ p ∈ m, (p.2.map IndexEntry.fileName).Nodup) :
    ∀ p ∈ ensureKey m d, (p.2.map IndexEntry.fileName).Nodup := by
  intro p hp
  unfold ensureKey at hp
  split at hp
  · exact h p hp
  · rcases List.mem_append.mp hp with hp | hp
    · exact h p hp
    · simp only [List.mem_singleton] at hp
      subst hp
      simp

theorem lookupEntry_foldl_upsertInDir (es : List IndexEntry) (M : IndexMap)
    (d x fn : Str) (h : ∀ e ∈ es, ¬(x = d ∧ fn = e.fileName)) :
    lookupEntry (es.foldl (fun m e => upsertInDir m d e) M) x fn =
      lookupEntry M x fn := by
  induction es generalizing M with
  | nil => rfl
  | cons e es ih =>
    simp only [List.foldl_cons]
    rw [ih _ (fun e2 he2 => h e2 (List.mem_cons.mpr (Or.inr he2)))]
    unfold lookupEntry
    rw [lookupDir_upsertInDir]
    by_cases hx : x = d
    · subst hx
      rw [if_pos rfl]
      have hfn : fn ≠ e.fileName := fun hc =>
        h e (List.mem_cons.mpr (Or.inl rfl)) ⟨rfl, hc⟩
      cases hl : lookupDir M x with
      | none => simp [hl]
      | some l => simp [hl, findEntry?_upsertEntryList_ne e l fn hfn]
    · rw [if_neg hx]

theorem map_fst_foldl_upsertInDir (es : List IndexEntry) (M : IndexMap)
    (d : Str) :
    ((es.foldl (fun m e => upsertInDir m d e) M).map Prod.fst) =
      M.map Prod.fst := by
  induction es generalizing M with
  | nil => rfl
  | cons e es ih =>
    simp only [List.foldl_cons]
    rw [ih, map_fst_upsertInDir]

theorem names_nodup_foldl_upsertInDir (es : List IndexEntry) (M : IndexMap)
    (d : Str) (h : ∀ p ∈ M, (p.2.map IndexEntry.fileName).Nodup) :
    ∀ p ∈ es.foldl (fun m e => upsertInDir m d e) M,
      (p.2.map IndexEntry.fileName).Nodup := by
  induction es generalizing M with
  | nil => exact h
  | cons e es ih =>
    simp only [List.foldl_cons]
    exact ih _ (names_nodup_upsertInDir M d e h)

theorem map_fst_nodup_mergeIndexEntries (newE : IndexMap) :
    ∀ M : IndexMap, (M.map Prod.fst).Nodup →
      ((mergeIndexEntries M newE).map Prod.fst).Nodup := by
  induction newE with
  | nil => intro M h; exact h
  | cons p rest ih =>
    intro M h
    simp only [mergeIndexEntries, List.foldl_cons]
    have h1 : (((p.2.foldl (fun m e => upsertInDir m p.1 e)
        (ensureKey M p.1)).map Prod.fst)).Nodup := by
      rw [map_fst_foldl_upsertInDir]
      exact nodup_map_fst_ensureKey M p.1 h
    exact ih _ h1

theorem names_nodup_mergeIndexEntries (newE : IndexMap) :
    ∀ M : IndexMap, (∀ p ∈ M, (p.2.map IndexEntry.fileName).Nodup) →
      ∀ p ∈ mergeIndexEntries M newE, (p.2.map IndexEntry.fileName).Nodup := by
  induction newE with
  | nil => intro M h; exact h
  | cons p rest ih =>
    intro M h
    simp only [mergeIndexEntries, List.foldl_cons]
    exact ih _ (names_nodup_foldl_upsertInDir p.2 (ensureKey M p.1) p.1
      (names_nodup_ensureKey M p.1 h))

theorem lookupEntry_mergeIndexEntries (newE : IndexMap) (x fn : Str) :
    ∀ M : IndexMap,
      (∀ p ∈ newE, ∀ e ∈ p.2, ¬(x = p.1 ∧ fn = e.fileName)) →
      lookupEntry (mergeIndexEntries M newE) x fn = lookupEntry M x fn := by
  induction newE with
  | nil => intro M _; rfl
  | cons p rest ih =>
    intro M h
    simp only [mergeIndexEntries, List.foldl_cons]
    rw [show (rest.foldl
        (fun merged q => q.2.foldl (fun m e => upsertInDir m q.1 e)
          (ensureKey merged q.1))
        (p.2.foldl (fun m e => upsertInDir m p.1 e) (ensureKey M p.1))) =
      mergeIndexEntries
        (p.2.foldl (fun m e => upsertInDir m p.1 e) (ensureKey M p.1)) rest
      from rfl]
    rw [ih _ (fun q hq => h q (List.mem_cons.mpr (Or.inr hq)))]
    rw [lookupEntry_foldl_upsertInDir p.2 _ p.1 x fn
      (fun e he => h p (List.mem_cons.mpr (Or.inl rfl)) e he)]
    exact lookupEntry_ensureKey M p.1 x fn

theorem occursIn_pushEntry (m : IndexMap) (d : Str) (e : IndexEntry)
    (x fn : Str) (h : occursIn (pushEntry m d e) x fn) :
    occursIn m x fn ∨ (x = d ∧ fn = e.fileName) := by
  induction m with
  | nil =>
    obtain ⟨p, hp, hpx, e2, he2, hen⟩ := h
    simp only [pushEntry, List.mem_singleton] at hp
    subst hp
    simp only [List.mem_singleton] at he2
    subst he2
    exact Or.inr ⟨hpx.symm, hen.symm⟩
  | cons r rest ih =>
    obtain ⟨k, es⟩ := r
    by_cases hkd : k = d
    · simp only [pushEntry, if_pos hkd] at h
      obtain ⟨p, hp, hpx, e2, he2, hen⟩ := h
      rcases List.mem_cons.mp hp with hp1 | hp2
      · subst hp1
        rcases List.mem_append.mp he2 with h2 | h2
        · exact Or.inl ⟨(k, es), List.mem_cons.mpr (Or.inl rfl), hpx, e2, h2, hen⟩
        · simp only [List.mem_singleton] at h2
          subst h2
          refine Or.inr ⟨?_, hen.symm⟩
          rw [← hpx]
          exact hkd
      · exact Or.inl ⟨p, List.mem_cons.mpr (Or.inr hp2), hpx, e2, he2, hen⟩
    · simp only [pushEntry, if_neg hkd] at h
      obtain ⟨p, hp, hpx, e2, he2, hen⟩ := h
      rcases List.mem_cons.mp hp with hp1 | hp2
      · subst hp1
        exact Or.inl ⟨(k, es), List.mem_cons.mpr (Or.inl rfl), hpx, e2, he2, hen⟩
      · rcases ih ⟨p, hp2, hpx, e2, he2, hen⟩ with hl | hr
        · obtain ⟨p3, hp3, h3⟩ := hl
          exact Or.inl ⟨p3, List.mem_cons.mpr (Or.inr hp3), h3⟩
        · exact Or.inr hr

theorem occursIn_pushEntry_mono (m : IndexMap) (d : Str) (e : IndexEntry)
    (x fn : Str) (h : occursIn m x fn) : occursIn (pushEntry m d e) x fn := by
  induction m with
  | nil =>
    obtain ⟨p, hp, _⟩ := h
    simp at hp
  | cons r rest ih =>
    obtain ⟨k, es⟩ := r
    obtain ⟨p, hp, hpx, e2, he2, hen⟩ := h
    by_cases hkd : k = d
    · simp only [pushEntry, if_pos hkd]
      rcases List.mem_cons.mp hp with hp1 | hp2
      · subst hp1
        exact ⟨(k, es ++ [e]), List.mem_cons.mpr (Or.inl rfl), hpx, e2,
          List.mem_append.mpr (Or.inl he2), hen⟩
      · exact ⟨p, List.mem_cons.mpr (Or.inr hp2), hpx, e2, he2, hen⟩
    · simp only [pushEntry, if_neg hkd]
      rcases List.mem_cons.mp hp with hp1 | hp2
      · subst hp1
        exact ⟨(k, es), List.mem_cons.mpr (Or.inl rfl), hpx, e2, he2, hen⟩
      · obtain ⟨p3, hp3, h3⟩ := ih ⟨p, hp2, hpx, e2, he2, hen⟩
        exact ⟨p3, List.mem_cons.mpr (Or.inr hp3), h3⟩

theorem occursIn_pushEntry_self (m : IndexMap) (d : Str) (e : IndexEntry) :
    occursIn (pushEntry m d e) d e.fileName := by
  induction m with
  | nil =>
    exact ⟨(d, [e]), List.mem_singleton.mpr rfl, rfl, e,
      List.mem_singleton.mpr rfl, rfl⟩
  | cons r rest ih =>
    obtain ⟨k, es⟩ := r
    by_cases hkd : k = d
    · simp only [pushEntry, if_pos hkd]
      exact ⟨(k, es ++ [e]), List.mem_cons.mpr (Or.inl rfl), hkd, e,
        List.mem_append.mpr (Or.inr (List.mem_singleton.mpr rfl)), rfl⟩
    · simp only [pushEntry, if_neg hkd]
      obtain ⟨p3, hp3, h3⟩ := ih
      exact ⟨p3, List.mem_cons.mpr (Or.inr hp3), h3⟩

theorem occursIn_buildNewEntries_elim (ovOf : Str → Str) (docs : List Str)
    (x fn : Str) :
    ∀ init : IndexMap,
      occursIn (docs.foldl
        (fun m f => pushEntry m (dirKeyOf f) (mkIndexEntry f (ovOf (mkDocLink f))))
        init) x fn →
      occursIn init x fn ∨ ∃ f ∈ docs, x = dirKeyOf f ∧ fn = parseNameOf f := by
  induction docs with
  | nil => intro init h; exact Or.inl h
  | cons f fs ih =>
    intro init h
    simp only [List.foldl_cons] at h
    rcases ih _ h with h1 | h1
    · rcases occursIn_pushEntry init (dirKeyOf f)
        (mkIndexEntry f (ovOf (mkDocLink f))) x fn h1 with h2 | h2
      · exact Or.inl h2
      · refine Or.inr ⟨f, List.mem_cons.mpr (Or.inl rfl), h2.1, h2.2⟩
    · obtain ⟨g, hg, h2⟩ := h1
      exact Or.inr ⟨g, List.mem_cons.mpr (Or.inr hg), h2⟩

theorem occursIn_foldl_push_mono (ovOf : Str → Str) (docs : List Str)
    (x fn : Str) :
    ∀ init : IndexMap, occursIn init x fn →
      occursIn (docs.foldl
        (fun m f => pushEntry m (dirKeyOf f) (mkIndexEntry f (ovOf (mkDocLink f))))
        init) x fn := by
  induction docs with
  | nil => intro init h; exact h
  | cons f fs ih =>
    intro init h
    simp only [List.foldl_cons]
    exact ih _ (occursIn_pushEntry_mono init _ _ x fn h)

theorem occursIn_foldl_push_of_mem (ovOf : Str → Str) (docs : List Str) :
    ∀ (init : IndexMap) (f : Str), f ∈ docs →
      occursIn (docs.foldl
        (fun m g => pushEntry m (dirKeyOf g) (mkIndexEntry g (ovOf (mkDocLink g))))
        init) (dirKeyOf f) (parseNameOf f) := by
  induction docs with
  | nil => intro init f hf; cases hf
  | cons g gs ih =>
    intro init f hf
    simp only [List.foldl_cons]
    rcases List.mem_cons.mp hf with h1 | h2
    · subst h1
      have hself := occursIn_pushEntry_self init (dirKeyOf f)
        (mkIndexEntry f (ovOf (mkDocLink f)))
      have hname : (mkIndexEntry f (ovOf (mkDocLink f))).fileName =
          parseNameOf f := rfl
      rw [hname] at hself
      exact occursIn_foldl_push_mono ovOf gs _ _ _ hself
    · exact ih _ f h2

theorem occursIn_buildNewEntries_of_mem (ovOf : Str → Str) (docs : List Str)
    (f : Str) (hf : f ∈ docs) :
    occursIn (buildNewEntries ovOf docs) (dirKeyOf f) (parseNameOf f) :=
  occursIn_foldl_push_of_mem ovOf docs [] f hf

theorem lookupDir_eq_none_iff (m : IndexMap) (d : Str) :
    lookupDir m d = none ↔ d ∉ m.map Prod.fst := by
  induction m with
  | nil => simp [lookupDir]
  | cons p rest ih =>
    by_cases hp : p.1 = d
    · simp [lookupDir, hp]
    · simp only [lookupDir, if_neg hp, List.map_cons, List.mem_cons, ih]
      constructor
      · intro h hc
        rcases hc with hc | hc
        · exact hp hc.symm
        · exact h hc
      · intro h hc
        exact h (Or.inr hc)

theorem lookupEntry_ne_none_upsertInDir (m : IndexMap) (d2 : Str)
    (e2 : IndexEntry) (x fn : Str) (h : lookupEntry m x fn ≠ none) :
    lookupEntry (upsertInDir m d2 e2) x fn ≠ none := by
  unfold lookupEntry at h ⊢
  rw [lookupDir_upsertInDir]
  by_cases hx : x = d2
  · subst hx
    rw [if_pos rfl]
    cases hl : lookupDir m x with
    | none =>
      rw [hl] at h
      simp at h
    | some l =>
      rw [hl] at h
      have h2 : findEntry? fn l ≠ none := h
      show findEntry? fn (upsertEntryList e2 l) ≠ none
      by_cases hq : fn = e2.fileName
      · rw [hq, findEntry?_upsertEntryList_self]
        simp
      · rw [findEntry?_upsertEntryList_ne e2 l fn hq]
        exact h2
  · rw [if_neg hx]
    exact h

theorem lookupEntry_upsertInDir_self (m : IndexMap) (d : Str) (e : IndexEntry)
    (hk : hasKey m d = true) :
    lookupEntry (upsertInDir m d e) d e.fileName = some e := by
  unfold lookupEntry
  rw [lookupDir_upsertInDir, if_pos rfl]
  cases hl : lookupDir m d with
  | none =>
    exact absurd ((hasKey_iff m d).mp hk)
      ((lookupDir_eq_none_iff m d).mp hl)
  | some l =>
    show findEntry? e.fileName (upsertEntryList e l) = some e
    exact findEntry?_upsertEntryList_self e l

theorem lookupEntry_ne_none_foldl_upsertInDir (es : List IndexEntry)
    (d x fn : Str) :
    ∀ M : IndexMap, lookupEntry M x fn ≠ none →
      lookupEntry (es.foldl (fun m e => upsertInDir m d e) M) x fn ≠ none := by
  induction es with
  | nil => intro M h; exact h
  | cons e es ih =>
    intro M h
    simp only [List.foldl_cons]
    exact ih _ (lookupEntry_ne_none_upsertInDir M d e x fn h)

theorem hasKey_foldl_upsertInDir (es : List IndexEntry) (d k : Str) :
    ∀ M : IndexMap,
      hasKey (es.foldl (fun m e => upsertInDir m d e) M) k = hasKey M k := by
  induction es with
  | nil => intro M; rfl
  | cons e es ih =>
    intro M
    simp only [List.foldl_cons]
    rw [ih]
    by_cases hk : hasKey M k = true
    · rw [hk]
      have := (hasKey_iff M k).mp hk
      rw [← map_fst_upsertInDir M d e] at this
      exact ((hasKey_iff _ k).mpr this).symm ▸ rfl
    · have h1 : hasKey M k = false := by
        cases h2 : hasKey M k
        · rfl
        · exact absurd h2 hk
      rw [h1]
      cases h3 : hasKey (upsertInDir M d e) k
      · rfl
      · have := (hasKey_iff _ k).mp h3
        rw [map_fst_upsertInDir] at this
        exact absurd ((hasKey_iff M k).mpr this) (by rw [h1]; simp)

theorem lookupEntry_foldl_upsert_mem (es : List IndexEntry) (d : Str) :
    ∀ (M : IndexMap) (e2 : IndexEntry), e2 ∈ es → hasKey M d = true →
      lookupEntry (es.foldl (fun m e => upsertInDir m d e) M) d e2.fileName
        ≠ none := by
  induction es with
  | nil => intro M e2 h2 _; cases h2
  | cons e es ih =>
    intro M e2 h2 hk
    simp only [List.foldl_cons]
    rcases List.mem_cons.mp h2 with h1 | h1
    · subst h1
      apply lookupEntry_ne_none_foldl_upsertInDir
      rw [lookupEntry_upsertInDir_self M d e2 hk]
      simp
    · apply ih _ e2 h1
      rw [hasKey_iff, map_fst_upsertInDir, ← hasKey_iff]
      exact hk

theorem lookupEntry_ne_none_mergeIndexEntries (newE : IndexMap) (x fn : Str) :
    ∀ M : IndexMap, lookupEntry M x fn ≠ none →
      lookupEntry (mergeIndexEntries M newE) x fn ≠ none := by
  induction newE with
  | nil => intro M h; exact h
  | cons p rest ih =>
    intro M h
    simp only [mergeIndexEntries, List.foldl_cons]
    rw [show (rest.foldl
        (fun merged q => q.2.foldl (fun m e => upsertInDir m q.1 e)
          (ensureKey merged q.1))
        (p.2.foldl (fun m e => upsertInDir m p.1 e) (ensureKey M p.1))) =
      mergeIndexEntries
        (p.2.foldl (fun m e => upsertInDir m p.1 e) (ensureKey M p.1)) rest
      from rfl]
    apply ih
    apply lookupEntry_ne_none_foldl_upsertInDir
    rw [lookupEntry_ensureKey]
    exact h

theorem hasKey_ensureKey_self (M : IndexMap) (d : Str) :
    hasKey (ensureKey M d) d = true := by
  rw [hasKey_iff, map_fst_ensureKey]
  split
  · rename_i h
    exact (hasKey_iff M d).mp h
  · simp

theorem lookupEntry_mergeIndexEntries_of_occurs (newE : IndexMap) (x fn : Str) :
    ∀ M : IndexMap, occursIn newE x fn →
      lookupEntry (mergeIndexEntries M newE) x fn ≠ none := by
  induction newE with
  | nil =>
    intro M h
    obtain ⟨p, hp, _⟩ := h
    simp at hp
  | cons p rest ih =>
    intro M h
    obtain ⟨q, hq, hqx, e2, he2, hen⟩ := h
    simp only [mergeIndexEntries, List.foldl_cons]
    rw [show (rest.foldl
        (fun merged r => r.2.foldl (fun m e => upsertInDir m r.1 e)
          (ensureKey merged r.1))
        (p.2.foldl (fun m e => upsertInDir m p.1 e) (ensureKey M p.1))) =
      mergeIndexEntries
        (p.2.foldl (fun m e => upsertInDir m p.1 e) (ensureKey M p.1)) rest
      from rfl]
    rcases List.mem_cons.mp hq with h1 | h1
    · subst h1
      apply lookupEntry_ne_none_mergeIndexEntries rest x fn
      rw [← hqx, ← hen]
      exact lookupEntry_foldl_upsert_mem q.2 q.1 (ensureKey M q.1) e2 he2
        (hasKey_ensureKey_self M q.1)
    · exact ih _ ⟨q, h1, hqx, e2, he2, hen⟩

theorem map_fst_pushEntry (m : IndexMap) (d : Str) (e : IndexEntry) :
    (pushEntry m d e).map Prod.fst =
      if hasKey m d then m.map Prod.fst else m.map Prod.fst ++ [d] := by
  induction m with
  | nil => simp [pushEntry, hasKey]
  | cons r rest ih =>
    obtain ⟨k, es⟩ := r
    by_cases hkd : k = d
    · subst hkd
      have hk : hasKey ((k, es) :: rest) k = true := by simp [hasKey]
      simp [pushEntry, hk]
    · have hk : hasKey ((k, es) :: rest) d = hasKey rest d := by
        simp [hasKey, hkd]
      simp only [pushEntry, if_neg hkd, List.map_cons, hk, ih]
      by_cases h2 : hasKey rest d = true
      · simp [h2]
      · have h3 : hasKey rest d = false := by
          cases h4 : hasKey rest d
          · rfl
          · exact absurd h4 h2
        simp [h3]

theorem nodup_map_fst_pushEntry (m : IndexMap) (d : Str) (e : IndexEntry)
    (h : (m.map Prod.fst).Nodup) :
    ((pushEntry m d e).map Prod.fst).Nodup := by
  rw [map_fst_pushEntry]
  split
  · exact h
  · rename_i hk
    have hd : d ∉ m.map Prod.fst := fun hc => hk ((hasKey_iff m d).mpr hc)
    simp [List.nodup_append, h, hd]

theorem nodup_map_fst_foldl_push (ovOf : Str → Str) (docs : List Str) :
    ∀ init : IndexMap, ((init.map Prod.fst).Nodup) →
      (((docs.foldl (fun m f => pushEntry m (dirKeyOf f)
        (mkIndexEntry f (ovOf (mkDocLink f)))) init).map Prod.fst)).Nodup := by
  induction docs with
  | nil => intro init h; exact h
  | cons f fs ih =>
    intro init h
    simp only [List.foldl_cons]
    exact ih _ (nodup_map_fst_pushEntry _ _ _ h)

theorem nodup_map_fst_buildNewEntries (ovOf : Str → Str) (docs : List Str) :
    ((buildNewEntries ovOf docs).map Prod.fst).Nodup :=
  nodup_map_fst_foldl_push ovOf docs [] (by simp)

theorem mem_entry_pushEntry (m : IndexMap) (d : Str) (e : IndexEntry) :
    ∀ p ∈ pushEntry m d e, ∀ x ∈ p.2,
      (∃ q ∈ m, q.1 = p.1 ∧ x ∈ q.2) ∨ (p.1 = d ∧ x = e) := by
  induction m with
  | nil =>
    intro p hp x hx
    simp only [pushEntry, List.mem_singleton] at hp
    subst hp
    simp only [List.mem_singleton] at hx
    exact Or.inr ⟨rfl, hx⟩
  | cons r rest ih =>
    obtain ⟨k, es⟩ := r
    intro p hp x hx
    by_cases hkd : k = d
    · simp only [pushEntry, if_pos hkd] at hp
      rcases List.mem_cons.mp hp with h1 | h1
      · subst h1
        rcases List.mem_append.mp hx with h2 | h2
        · exact Or.inl ⟨(k, es), List.mem_cons.mpr (Or.inl rfl), rfl, h2⟩
        · simp only [List.mem_singleton] at h2
          exact Or.inr ⟨hkd, h2⟩
      · exact Or.inl ⟨p, List.mem_cons.mpr (Or.inr h1), rfl, hx⟩
    · simp only [pushEntry, if_neg hkd] at hp
      rcases List.mem_cons.mp hp with h1 | h1
      · subst h1
        exact Or.inl ⟨(k, es), List.mem_cons.mpr (Or.inl rfl), rfl, hx⟩
      · rcases ih p h1 x hx with ⟨q, hq, hq1, hq2⟩ | h2
        · exact Or.inl ⟨q, List.mem_cons.mpr (Or.inr hq), hq1, hq2⟩
        · exact Or.inr h2

theorem mem_entry_foldl_push (ovOf : Str → Str) (docs : List Str) :
    ∀ init : IndexMap, ∀ p ∈ docs.foldl
        (fun m f => pushEntry m (dirKeyOf f)
          (mkIndexEntry f (ovOf (mkDocLink f)))) init, ∀ x ∈ p.2,
      (∃ q ∈ init, q.1 = p.1 ∧ x ∈ q.2) ∨
      ∃ f ∈ docs, p.1 = dirKeyOf f ∧
        x = mkIndexEntry f (ovOf (mkDocLink f)) := by
  induction docs with
  | nil =>
    intro init p hp x hx
    exact Or.inl ⟨p, hp, rfl, hx⟩
  | cons f fs ih =>
    intro init p hp x hx
    simp only [List.foldl_cons] at hp
    rcases ih _ p hp x hx with ⟨q, hq, hq1, hq2⟩ | ⟨g, hg, h1, h2⟩
    · rcases mem_entry_pushEntry init (dirKeyOf f)
        (mkIndexEntry f (ovOf (mkDocLink f))) q hq x hq2 with
        ⟨q2, hq2a, hq2b, hq2c⟩ | ⟨hqa, hqb⟩
      · exact Or.inl ⟨q2, hq2a, hq2b.trans hq1, hq2c⟩
      · exact Or.inr ⟨f, List.mem_cons.mpr (Or.inl rfl), hq1 ▸ hqa, hqb⟩
    · exact Or.inr ⟨g, List.mem_cons.mpr (Or.inr hg), h1, h2⟩

theorem mem_entry_buildNewEntries (ovOf : Str → Str) (docs : List Str) :
    ∀ p ∈ buildNewEntries ovOf docs, ∀ x ∈ p.2,
      ∃ f ∈ docs, p.1 = dirKeyOf f ∧
        x = mkIndexEntry f (ovOf (mkDocLink f)) := by
  intro p hp x hx
  rcases mem_entry_foldl_push ovOf docs [] p hp x hx with ⟨q, hq, _⟩ | h
  · simp at hq
  · exact h

theorem lookupEntry_foldl_upsert_unique (es : List IndexEntry) (d fn : Str)
    (estar : IndexEntry) :
    ∀ M : IndexMap, hasKey M d = true → estar ∈ es → estar.fileName = fn →
      (∀ e ∈ es, e.fileName = fn → e = estar) →
      lookupEntry (es.foldl (fun m e => upsertInDir m d e) M) d fn
        = some estar := by
  induction es with
  | nil =>
    intro M _ h
    cases h
  | cons e es ih =>
    intro M hk hmem hfn hu
    simp only [List.foldl_cons]
    by_cases htail : estar ∈ es
    · refine ih _ ?_ htail hfn
        (fun e2 he2 h2 => hu e2 (List.mem_cons.mpr (Or.inr he2)) h2)
      rw [hasKey_iff, map_fst_upsertInDir, ← hasKey_iff]
      exact hk
    · have heq : estar = e := by
        rcases List.mem_cons.mp hmem with h1 | h1
        · exact h1
        · exact absurd h1 htail
      subst heq
      rw [lookupEntry_foldl_upsertInDir es _ d d fn
        (fun e2 he2 hc =>
          htail ((hu e2 (List.mem_cons.mpr (Or.inr he2)) hc.2.symm) ▸ he2))]
      rw [← hfn]
      exact lookupEntry_upsertInDir_self M d estar hk

theorem lookupEntry_mergeIndexEntries_replaced (newE : IndexMap) (d fn : Str)
    (es : List IndexEntry) (estar : IndexEntry) :
    ∀ M : IndexMap, ((newE.map Prod.fst).Nodup) → (d, es) ∈ newE →
      estar ∈ es → estar.fileName = fn →
      (∀ e ∈ es, e.fileName = fn → e = estar) →
      lookupEntry (mergeIndexEntries M newE) d fn = some estar := by
  induction newE with
  | nil =>
    intro M _ h
    cases h
  | cons p rest ih =>
    intro M hnd hmem hstar hfn hu
    simp only [mergeIndexEntries, List.foldl_cons]
    rw [show (rest.foldl
        (fun merged q => q.2.foldl (fun m e => upsertInDir m q.1 e)
          (ensureKey merged q.1))
        (p.2.foldl (fun m e => upsertInDir m p.1 e) (ensureKey M p.1))) =
      mergeIndexEntries
        (p.2.foldl (fun m e => upsertInDir m p.1 e) (ensureKey M p.1)) rest
      from rfl]
    rcases List.mem_cons.mp hmem with h1 | h1
    · subst h1
      simp only [List.map_cons, List.nodup_cons] at hnd
      have hcond : ∀ q ∈ rest, ∀ e2 ∈ q.2,
          ¬(d = q.1 ∧ fn = e2.fileName) := by
        intro q hq e2 he2 hc
        exact hnd.1 (by rw [hc.1]; exact List.mem_map.mpr ⟨q, hq, rfl⟩)
      rw [lookupEntry_mergeIndexEntries rest d fn _ hcond]
      exact lookupEntry_foldl_upsert_unique es d fn estar (ensureKey M d)
        (hasKey_ensureKey_self M d) hstar hfn hu
    · refine ih _ ?_ h1 hstar hfn hu
      simp only [List.map_cons, List.nodup_cons] at hnd
      exact hnd.2

theorem entry_unique_in_group (ovOf : Str → Str) (documented : List Str)
    (hdk : (documented.map (fun f => (dirKeyOf f, parseNameOf f))).Nodup)
    (f : Str) (hf : f ∈ documented) (p2 : List IndexEntry)
    (hp : (dirKeyOf f, p2) ∈ buildNewEntries ovOf documented) :
    ∀ e ∈ p2, e.fileName = parseNameOf f →
      e = mkIndexEntry f (ovOf (mkDocLink f)) := by
  intro e he hefn
  obtain ⟨g, hg, hgb, hgc⟩ := mem_entry_buildNewEntries ovOf documented
    (dirKeyOf f, p2) hp e he
  have h1 : dirKeyOf g = dirKeyOf f := by
    have h0 : dirKeyOf f = dirKeyOf g := hgb
    exact h0.symm
  have h2 : parseNameOf g = parseNameOf f := by
    have h3 : e.fileName = parseNameOf g := by
      rw [hgc]
      rfl
    exact h3.symm.trans hefn
  have hgf : g = f := List.inj_on_of_nodup_map hdk hg hf
    (show (dirKeyOf g, parseNameOf g) = (dirKeyOf f, parseNameOf f) by
      rw [h1, h2])
  rw [hgc, hgf]

/-- C8: `generateIndex` maintains the (directory, fileName) uniqueness
invariant of the index mapping — starting from a duplicate-free parsed index
it yields a duplicate-free merged index; every documented file's key is
present afterwards; every key not re-documented in the current run keeps its
exact prior entry; and (for a run whose documented files have pairwise
distinct keys) the entry stored at each documented file's key is exactly the
newly built entry — an existing entry under the same key is replaced in
place, never duplicated. -/
theorem generateIndex_upsert_invariant (ovOf : Str → Str) (existing : IndexMap)
    (documented : List Str)
    (hk : (existing.map Prod.fst).Nodup)
    (hn : ∀ p ∈ existing, (p.2.map IndexEntry.fileName).Nodup) :
    ((generateIndexMap ovOf existing documented).map Prod.fst).Nodup ∧
    (∀ p ∈ generateIndexMap ovOf existing documented,
      (p.2.map IndexEntry.fileName).Nodup) ∧
    (∀ f ∈ documented,
      lookupEntry (generateIndexMap ovOf existing documented)
        (dirKeyOf f) (parseNameOf f) ≠ none) ∧
    (∀ d fn, (∀ f ∈ documented, ¬(dirKeyOf f = d ∧ parseNameOf f = fn)) →
      lookupEntry (generateIndexMap ovOf existing documented) d fn =
        lookupEntry existing d fn) ∧
    ((documented.map (fun f => (dirKeyOf f, parseNameOf f))).Nodup →
      ∀ f ∈ documented,
        lookupEntry (generateIndexMap ovOf existing documented)
          (dirKeyOf f) (parseNameOf f) =
          some (mkIndexEntry f (ovOf (mkDocLink f)))) := by
  unfold generateIndexMap
  refine ⟨map_fst_nodup_mergeIndexEntries _ existing hk,
          names_nodup_mergeIndexEntries _ existing hn, ?_, ?_, ?_⟩
  · intro f hf
    exact lookupEntry_mergeIndexEntries_of_occurs _ _ _ existing
      (occursIn_buildNewEntries_of_mem ovOf documented f hf)
  · intro d fn hno
    apply lookupEntry_mergeIndexEntries (buildNewEntries ovOf documented) d fn
      existing
    intro p hp e2 he2 hc
    have hocc : occursIn (buildNewEntries ovOf documented) d fn :=
      ⟨p, hp, hc.1.symm, e2, he2, hc.2.symm⟩
    rcases occursIn_buildNewEntries_elim ovOf documented d fn [] hocc
      with h1 | h1
    · obtain ⟨q, hq, _⟩ := h1
      simp at hq
    · obtain ⟨f, hf, h2⟩ := h1
      exact hno f hf ⟨h2.1.symm, h2.2.symm⟩
  · intro hdk f hf
    obtain ⟨p, hp, hpx, e2, he2, hen⟩ :=
      occursIn_buildNewEntries_of_mem ovOf documented f hf
    obtain ⟨p1, p2⟩ := p
    have hpx2 : p1 = dirKeyOf f := hpx
    subst hpx2
    have huniq := entry_unique_in_group ovOf documented hdk f hf p2 hp
    have he2star : e2 = mkIndexEntry f (ovOf (mkDocLink f)) := huniq e2 he2 hen
    exact lookupEntry_mergeIndexEntries_replaced
      (buildNewEntries ovOf documented) (dirKeyOf f) (parseNameOf f) p2
      (mkIndexEntry f (ovOf (mkDocLink f))) existing
      (nodup_map_fst_buildNewEntries ovOf documented) hp
      (he2star ▸ he2) rfl huniq

theorem generateIndex_upsert_invariant_witness :
    ((generateIndexMap (fun _ => strOf "New overview")
        [(strOf "src",
          [(⟨strOf "a", strOf "- **[a](docs/src/a.md)** - old summary",
             strOf "src/a.ts"⟩ : IndexEntry),
           (⟨strOf "c", strOf "- **[c](docs/src/c.md)**",
             strOf "src/c.ts"⟩ : IndexEntry)])]
        [strOf "src/a.ts"]).map Prod.fst).Nodup ∧
    lookupEntry [(strOf "src",
          [(⟨strOf "a", strOf "- **[a](docs/src/a.md)** - old summary",
             strOf "src/a.ts"⟩ : IndexEntry),
           (⟨strOf "c", strOf "- **[c](docs/src/c.md)**",
             strOf "src/c.ts"⟩ : IndexEntry)])]
        (dirKeyOf (strOf "src/a.ts")) (parseNameOf (strOf "src/a.ts")) ≠
      none ∧
    lookupEntry (generateIndexMap (fun _ => strOf "New overview")
        [(strOf "src",
          [(⟨strOf "a", strOf "- **[a](docs/src/a.md)** - old summary",
             strOf "src/a.ts"⟩ : IndexEntry),
           (⟨strOf "c", strOf "- **[c](docs/src/c.md)**",
             strOf "src/c.ts"⟩ : IndexEntry)])]
        [strOf "src/a.ts"])
        (dirKeyOf (strOf "src/a.ts")) (parseNameOf (strOf "src/a.ts")) =
      some (mkIndexEntry (strOf "src/a.ts")
        ((fun _ => strOf "New overview") (mkDocLink (strOf "src/a.ts")))) ∧
    lookupEntry (generateIndexMap (fun _ => strOf "New overview")
        [(strOf "src",
          [(⟨strOf "a", strOf "- **[a](docs/src/a.md)** - old summary",
             strOf "src/a.ts"⟩ : IndexEntry),
           (⟨strOf "c", strOf "- **[c](docs/src/c.md)**",
             strOf "src/c.ts"⟩ : IndexEntry)])]
        [strOf "src/a.ts"]) (strOf "src") (strOf "c") =
      lookupEntry [(strOf "src",
          [(⟨strOf "a", strOf "- **[a](docs/src/a.md)** - old summary",
             strOf "src/a.ts"⟩ : IndexEntry),
           (⟨strOf "c", strOf "- **[c](docs/src/c.md)**",
             strOf "src/c.ts"⟩ : IndexEntry)])] (strOf "src") (strOf "c") := by
  obtain ⟨h1, h2, h3, h4, h5⟩ := generateIndex_upsert_invariant
    (fun _ => strOf "New overview")
    [(strOf "src",
      [(⟨strOf "a", strOf "- **[a](docs/src/a.md)** - old summary",
         strOf "src/a.ts"⟩ : IndexEntry),
       (⟨strOf "c", strOf "- **[c](docs/src/c.md)**",
         strOf "src/c.ts"⟩ : IndexEntry)])]
    [strOf "src/a.ts"] (by decide) (by decide)
  exact ⟨h1, by decide,
    h5 (by decide) (strOf "src/a.ts") (List.mem_cons.mpr (Or.inl rfl)),
    h4 (strOf "src") (strOf "c") (by decide)⟩

theorem startsWithStr_append_self (p rest : Str) :
    startsWithStr p (p ++ rest) = true := by
  induction p with
  | nil => rfl
  | cons c cs ih => simp [startsWithStr, ih]

theorem startsWith_false_of_head_ne (a : Char) (p : Str) (c : Char)
    (rest : Str) (h : a ≠ c) :
    startsWithStr (a :: p) (c :: rest) = false := by
  simp [startsWithStr, h]

theorem startsWith_clash (a b : Char) (p q l : Str) (hab : b ≠ a)
    (h : startsWithStr (a :: p) l = true) :
    startsWithStr (b :: q) l = false := by
  cases l with
  | nil => simp [startsWithStr] at h
  | cons c cs =>
    simp only [startsWithStr, Bool.and_eq_true, decide_eq_true_eq] at h
    exact startsWith_false_of_head_ne b q c cs (h.1 ▸ hab)

theorem startsWith_mono (p q : Str) :
    ∀ l : Str, startsWithStr (p ++ q) l = true → startsWithStr p l = true := by
  induction p with
  | nil => intro l _; rfl
  | cons a ps ih =>
    intro l h
    cases l with
    | nil => simp [startsWithStr] at h
    | cons c cs =>
      simp only [List.cons_append, startsWithStr, Bool.and_eq_true,
        decide_eq_true_eq] at h ⊢
      exact ⟨h.1, ih cs h.2⟩

theorem parseIndexStep_inert (st : Option Str × IndexMap) (line : Str)
    (h1 : startsWithStr (strOf "### ") line = false)
    (h2 : startsWithStr (strOf "- **[") line = false) :
    parseIndexStep st line = st := by
  have h3 : startsWithStr (strOf "### Root Directory") line = false := by
    cases h4 : startsWithStr (strOf "### Root Directory") line
    · rfl
    · rw [show strOf "### Root Directory" =
        strOf "### " ++ strOf "Root Directory" from rfl] at h4
      rw [startsWith_mono (strOf "### ") (strOf "Root Directory") line h4]
        at h1
      cases h1
  unfold parseIndexStep
  simp [h1, h2, h3]

theorem parseIndexStep_inert_head (st : Option Str × IndexMap) (c : Char)
    (rest : Str) (hc1 : c ≠ '#') (hc2 : c ≠ '-') :
    parseIndexStep st (c :: rest) = st := by
  apply parseIndexStep_inert
  · rw [show strOf "### " = '#' :: strOf "## " from rfl]
    exact startsWith_false_of_head_ne '#' _ c rest (fun h => hc1 h.symm)
  · rw [show strOf "- **[" = '-' :: strOf " **[" from rfl]
    exact startsWith_false_of_head_ne '-' _ c rest (fun h => hc2 h.symm)

theorem parseIndexStep_dir_header (st : Option Str × IndexMap) (d : Str) :
    parseIndexStep st (strOf "### " ++ d ++ strOf "/") = (some d, st.2) := by
  rw [List.append_assoc]
  have h1 : startsWithStr (strOf "### ") (strOf "### " ++ (d ++ strOf "/"))
      = true := startsWithStr_append_self (strOf "### ") (d ++ strOf "/")
  have h2 : endsWithStr (strOf "/") (strOf "### " ++ (d ++ strOf "/"))
      = true := by
    unfold endsWithStr
    simp only [List.reverse_append]
    simp [startsWithStr]
  have h3 : (strOf "### " ++ (d ++ strOf "/")).drop 4 = d ++ strOf "/" := by
    rw [show (4 : Nat) = (strOf "### ").length from rfl, List.drop_left]
  have h4 : (d ++ strOf "/").dropLast = d := by
    rw [show strOf "/" = ['/'] from rfl]
    simp
  unfold parseIndexStep
  simp [h1, h2, h3, h4]

theorem parseIndexStep_root_header (st : Option Str × IndexMap) :
    parseIndexStep st (strOf "### Root Directory") =
      (some (strOf "Root"), st.2) := by
  have h1 : (startsWithStr (strOf "### ") (strOf "### Root Directory") &&
      endsWithStr (strOf "/") (strOf "### Root Directory")) = false := by
    decide
  have h2 : startsWithStr (strOf "### Root Directory")
      (strOf "### Root Directory") = true := by decide
  unfold parseIndexStep
  simp [h1, h2]

theorem parseIndexStep_entry (cd : Str) (M : IndexMap) (line fn : Str)
    (hd : cd ≠ [])
    (h5 : startsWithStr (strOf "- **[") line = true)
    (hscan : scanBracketName line = some fn) :
    parseIndexStep (some cd, M) line =
      (some cd, pushEntry M cd
        { fileName := fn, entry := line,
          filePath := if cd = strOf "Root" then fn
                      else cd ++ '/' :: fn }) := by
  have h5a := h5
  rw [show strOf "- **[" = '-' :: strOf " **[" from rfl] at h5a
  have h1 : startsWithStr (strOf "### ") line = false := by
    rw [show strOf "### " = '#' :: strOf "## " from rfl]
    exact startsWith_clash '-' '#' _ _ line (by decide) h5a
  have h2 : startsWithStr (strOf "### Root Directory") line = false := by
    rw [show strOf "### Root Directory" =
      '#' :: strOf "## Root Directory" from rfl]
    exact startsWith_clash '-' '#' _ _ line (by decide) h5a
  have h3 : truthyDir (some cd) = true := by
    cases cd with
    | nil => exact absurd rfl hd
    | cons a l => rfl
  unfold parseIndexStep
  simp [h1, h2, h5, h3, hscan]

theorem parse_foldl_inert (lines : List Str) :
    ∀ st : Option Str × IndexMap,
      (∀ l ∈ lines, startsWithStr (strOf "### ") l = false ∧
        startsWithStr (strOf "- **[") l = false) →
      lines.foldl parseIndexStep st = st := by
  induction lines with
  | nil => intro st _; rfl
  | cons l rest ih =>
    intro st h
    simp only [List.foldl_cons]
    rw [parseIndexStep_inert st l
      (h l (List.mem_cons.mpr (Or.inl rfl))).1
      (h l (List.mem_cons.mpr (Or.inl rfl))).2]
    exact ih st (fun l2 hl2 => h l2 (List.mem_cons.mpr (Or.inr hl2)))

theorem parse_preamble (total : Nat) (st : Option Str × IndexMap) :
    (indexPreamble total).foldl parseIndexStep st = st := by
  apply parse_foldl_inert
  intro l hl
  simp only [indexPreamble, List.mem_cons, List.not_mem_nil, or_false] at hl
  rcases hl with rfl | rfl | rfl | rfl | rfl | rfl | rfl | rfl
  · exact ⟨by decide, by decide⟩
  · exact ⟨by decide, by decide⟩
  · exact ⟨by decide, by decide⟩
  · exact ⟨by decide, by decide⟩
  · rw [show strOf "📊 **Total documented files**: " ++ natToStr total =
      '📊' :: (strOf " **Total documented files**: " ++ natToStr total)
      from rfl]
    constructor
    · rw [show strOf "### " = '#' :: strOf "## " from rfl]
      exact startsWith_false_of_head_ne '#' _ '📊' _ (by decide)
    · rw [show strOf "- **[" = '-' :: strOf " **[" from rfl]
      exact startsWith_false_of_head_ne '-' _ '📊' _ (by decide)
  · exact ⟨by decide, by decide⟩
  · exact ⟨by decide, by decide⟩
  · exact ⟨by decide, by decide⟩

theorem parse_footer (now : Str) (st : Option Str × IndexMap) :
    (indexFooter now).foldl parseIndexStep st = st := by
  apply parse_foldl_inert
  intro l hl
  simp only [indexFooter, List.mem_cons, List.not_mem_nil, or_false] at hl
  rcases hl with rfl | rfl | rfl | rfl | rfl
  · exact ⟨by decide, by decide⟩
  · exact ⟨by decide, by decide⟩
  · exact ⟨by decide, by decide⟩
  · exact ⟨by decide, by decide⟩
  · rw [show strOf "🔄 *Last updated: " ++ now ++ strOf "*" =
      '🔄' :: (strOf " *Last updated: " ++ now ++ strOf "*") from rfl]
    constructor
    · rw [show strOf "### " = '#' :: strOf "## " from rfl]
      exact startsWith_false_of_head_ne '#' _ '🔄' _ (by decide)
    · rw [show strOf "- **[" = '-' :: strOf " **[" from rfl]
      exact startsWith_false_of_head_ne '-' _ '🔄' _ (by decide)

theorem insertSortedBy_perm (le : α → α → Bool) (a : α) (l : List α) :
    (insertSortedBy le a l).Perm (a :: l) := by
  induction l with
  | nil => exact List.Perm.refl _
  | cons b bs ih =>
    by_cases h : le a b
    · simp [insertSortedBy, h]
    · simp only [insertSortedBy, if_neg h]
      exact ((ih.cons b).trans (List.Perm.swap a b bs))

theorem sortByB_perm (le : α → α → Bool) (l : List α) :
    (sortByB le l).Perm l := by
  induction l with
  | nil => exact List.Perm.refl _
  | cons x xs ih =>
    simp only [sortByB, List.foldr_cons]
    exact (insertSortedBy_perm le x _).trans (ih.cons x)

theorem parse_entry_lines (d : Str) (es : List IndexEntry) (hd : d ≠ []) :
    ∀ M : IndexMap,
      (∀ e ∈ es, startsWithStr (strOf "- **[") e.entry = true ∧
        scanBracketName e.entry = some e.fileName) →
      (es.map IndexEntry.entry).foldl parseIndexStep (some d, M) =
        (some d, es.foldl (fun m e => pushEntry m d (reparseE d e)) M) := by
  induction es with
  | nil => intro M _; rfl
  | cons e es ih =>
    intro M h
    simp only [List.map_cons, List.foldl_cons]
    rw [parseIndexStep_entry d M e.entry e.fileName hd
      (h e (List.mem_cons.mpr (Or.inl rfl))).1
      (h e (List.mem_cons.mpr (Or.inl rfl))).2]
    exact ih _ (fun e2 he2 => h e2 (List.mem_cons.mpr (Or.inr he2)))

theorem hasKey_cons_false (k : Str) (es : List IndexEntry) (m : IndexMap)
    (d : Str) (h : hasKey ((k, es) :: m) d = false) :
    ¬(k = d) ∧ hasKey m d = false := by
  simp only [hasKey, List.any_cons, Bool.or_eq_false_iff,
    decide_eq_false_iff_not] at h
  exact ⟨h.1, by simp [hasKey, h.2]⟩

theorem pushEntry_fresh (m : IndexMap) (d : Str) (e : IndexEntry)
    (h : hasKey m d = false) : pushEntry m d e = m ++ [(d, [e])] := by
  induction m with
  | nil => rfl
  | cons r rest ih =>
    obtain ⟨k, es⟩ := r
    obtain ⟨h1, h2⟩ := hasKey_cons_false k es rest d h
    simp only [pushEntry, if_neg h1, List.cons_append]
    rw [ih h2]

theorem pushEntry_last (m : IndexMap) (d : Str) (l : List IndexEntry)
    (e : IndexEntry) (h : hasKey m d = false) :
    pushEntry (m ++ [(d, l)]) d e = m ++ [(d, l ++ [e])] := by
  induction m with
  | nil => simp [pushEntry]
  | cons r rest ih =>
    obtain ⟨k, es⟩ := r
    obtain ⟨h1, h2⟩ := hasKey_cons_false k es rest d h
    simp only [List.cons_append, pushEntry, if_neg h1]
    congr 1
    exact ih h2

theorem foldl_pushEntry_acc (g : IndexEntry → IndexEntry) (d : Str)
    (es : List IndexEntry) :
    ∀ (m : IndexMap) (l : List IndexEntry), hasKey m d = false →
      es.foldl (fun acc e => pushEntry acc d (g e)) (m ++ [(d, l)]) =
        m ++ [(d, l ++ es.map g)] := by
  induction es with
  | nil => intro m l _; simp
  | cons e es ih =>
    intro m l h
    simp only [List.foldl_cons]
    rw [pushEntry_last m d l (g e) h, ih m (l ++ [g e]) h]
    simp

theorem foldl_pushEntry_fresh (g : IndexEntry → IndexEntry) (d : Str)
    (es : List IndexEntry) (m : IndexMap) (h : hasKey m d = false) :
    es.foldl (fun acc e => pushEntry acc d (g e)) m =
      m ++ (if es.isEmpty then [] else [(d, es.map g)]) := by
  cases es with
  | nil => simp
  | cons e es =>
    simp only [List.foldl_cons, List.isEmpty_cons]
    rw [pushEntry_fresh m d (g e) h, foldl_pushEntry_acc g d es m [g e] h]
    simp

theorem insertSortedBy_ne_nil (le : α → α → Bool) (a : α) (l : List α) :
    insertSortedBy le a l ≠ [] := by
  cases l with
  | nil => simp [insertSortedBy]
  | cons b bs => by_cases h : le a b <;> simp [insertSortedBy, h]

theorem sortByB_isEmpty (le : α → α → Bool) (l : List α) :
    (sortByB le l).isEmpty = l.isEmpty := by
  cases l with
  | nil => rfl
  | cons x xs =>
    simp only [sortByB, List.foldr_cons, List.isEmpty_cons]
    cases h : insertSortedBy le x (List.foldr (insertSortedBy le) [] xs) with
    | nil => exact absurd h (insertSortedBy_ne_nil le x _)
    | cons y ys => rfl

theorem hasKey_append (m1 m2 : IndexMap) (d : Str) :
    hasKey (m1 ++ m2) d = (hasKey m1 d || hasKey m2 d) := by
  simp [hasKey, List.any_append]

theorem canonEntries_cons (p : Str × List IndexEntry) (rest : IndexMap) :
    canonEntries (p :: rest) =
      (if p.2.isEmpty then []
       else [(p.1, (sortByB (fun a b => strLeB a.fileName b.fileName)
         p.2).map (reparseE p.1))]) ++ canonEntries rest := by
  unfold canonEntries
  by_cases h : p.2.isEmpty <;> simp [List.filter_cons, h]

theorem parse_dirBlock (d : Str) (es : List IndexEntry) (st : Option Str)
    (M : IndexMap) (hd : d ≠ []) (hk : hasKey M d = false)
    (hwf : ∀ e ∈ es, startsWithStr (strOf "- **[") e.entry = true ∧
      scanBracketName e.entry = some e.fileName) :
    (renderDirBlock d es).foldl parseIndexStep (st, M) =
      (some d, M ++ (if es.isEmpty then []
        else [(d, (sortByB (fun a b => strLeB a.fileName b.fileName)
          es).map (reparseE d))])) := by
  have hwfs : ∀ e ∈ sortByB (fun a b => strLeB a.fileName b.fileName) es,
      startsWithStr (strOf "- **[") e.entry = true ∧
      scanBracketName e.entry = some e.fileName :=
    fun e he => hwf e
      ((sortByB_perm (fun a b => strLeB a.fileName b.fileName) es).mem_iff.mp
        he)
  have hstep2 : ∀ N : IndexMap, parseIndexStep ((some d : Option Str), N) []
      = (some d, N) :=
    fun N => parseIndexStep_inert _ [] (by decide) (by decide)
  unfold renderDirBlock
  by_cases hroot : d = strOf "Root"
  · simp only [List.foldl_cons, if_pos hroot]
    rw [parseIndexStep_root_header (st, M)]
    rw [show ((some (strOf "Root") : Option Str), M) = (some d, M) by
      rw [hroot]]
    rw [hstep2 M, List.foldl_append]
    rw [parse_entry_lines d _ hd M hwfs]
    rw [foldl_pushEntry_fresh (reparseE d) d _ M hk]
    simp only [List.foldl_cons, List.foldl_nil, sortByB_isEmpty]
    rw [hstep2 _]
  · simp only [List.foldl_cons, if_neg hroot]
    rw [parseIndexStep_dir_header (st, M) d]
    rw [hstep2 M, List.foldl_append]
    rw [parse_entry_lines d _ hd M hwfs]
    rw [foldl_pushEntry_fresh (reparseE d) d _ M hk]
    simp only [List.foldl_cons, List.foldl_nil, sortByB_isEmpty]
    rw [hstep2 _]

theorem parse_blocks (L : IndexMap) :
    ∀ (st : Option Str) (M : IndexMap),
      (∀ p ∈ L, p.1 ≠ []) →
      (∀ p ∈ L, hasKey M p.1 = false) →
      ((L.map Prod.fst).Nodup) →
      (∀ p ∈ L, ∀ e ∈ p.2, startsWithStr (strOf "- **[") e.entry = true ∧
        scanBracketName e.entry = some e.fileName) →
      ∃ st2, ((L.map (fun p => renderDirBlock p.1 p.2)).flatten).foldl
          parseIndexStep (st, M) = (st2, M ++ canonEntries L) := by
  induction L with
  | nil =>
    intro st M _ _ _ _
    exact ⟨st, by simp [canonEntries]⟩
  | cons p rest ih =>
    intro st M hne hfresh hnd hwf
    simp only [List.map_cons, List.flatten_cons]
    rw [List.foldl_append]
    rw [parse_dirBlock p.1 p.2 st M (hne p (List.mem_cons.mpr (Or.inl rfl)))
      (hfresh p (List.mem_cons.mpr (Or.inl rfl)))
      (hwf p (List.mem_cons.mpr (Or.inl rfl)))]
    have hnd2 : ((rest.map Prod.fst).Nodup) := by
      simp only [List.map_cons, List.nodup_cons] at hnd
      exact hnd.2
    have hp1 : p.1 ∉ rest.map Prod.fst := by
      simp only [List.map_cons, List.nodup_cons] at hnd
      exact hnd.1
    have hfresh2 : ∀ q ∈ rest,
        hasKey (M ++ (if p.2.isEmpty then []
          else [(p.1, (sortByB (fun a b => strLeB a.fileName b.fileName)
            p.2).map (reparseE p.1))])) q.1 = false := by
      intro q hq
      rw [hasKey_append]
      have hq1 : hasKey M q.1 = false :=
        hfresh q (List.mem_cons.mpr (Or.inr hq))
      have hqp : ¬(p.1 = q.1) := by
        intro hc
        exact hp1 (hc ▸ List.mem_map.mpr ⟨q, hq, rfl⟩)
      rw [hq1]
      by_cases hemp : p.2.isEmpty
      · simp [hemp, hasKey]
      · simp [hemp, hasKey, hqp]
    obtain ⟨st2, hrest⟩ := ih (some p.1) _
      (fun q hq => hne q (List.mem_cons.mpr (Or.inr hq))) hfresh2 hnd2
      (fun q hq => hwf q (List.mem_cons.mpr (Or.inr hq)))
    refine ⟨st2, ?_⟩
    rw [hrest, List.append_assoc, ← canonEntries_cons]

theorem parse_render_eq_canon (now : Str) (m : IndexMap)
    (hkeys : (m.map Prod.fst).Nodup)
    (hkeysne : ∀ p ∈ m, p.1 ≠ [])
    (hwf : ∀ p ∈ m, ∀ e ∈ p.2, startsWithStr (strOf "- **[") e.entry = true ∧
      scanBracketName e.entry = some e.fileName) :
    parseIndexLines (renderIndexLines now m) =
      canonEntries (sortByB (fun a b => strLeB a.1 b.1) m) := by
  unfold parseIndexLines renderIndexLines
  rw [List.foldl_append, List.foldl_append]
  rw [parse_preamble]
  have hperm := sortByB_perm (fun a b => strLeB a.1 b.1) m
  obtain ⟨st2, hblocks⟩ := parse_blocks
    (sortByB (fun a b => strLeB a.1 b.1) m) none []
    (fun p hp => hkeysne p (hperm.mem_iff.mp hp))
    (fun p _ => rfl)
    ((hperm.map Prod.fst).nodup_iff.mpr hkeys)
    (fun p hp => hwf p (hperm.mem_iff.mp hp))
  rw [hblocks, parse_footer]
  simp

theorem lookupDir_perm {m1 m2 : IndexMap} (hp : m1.Perm m2) :
    (m1.map Prod.fst).Nodup → ∀ d, lookupDir m1 d = lookupDir m2 d := by
  induction hp with
  | nil => intro _ d; rfl
  | cons x p ih =>
    intro nd d
    simp only [List.map_cons, List.nodup_cons] at nd
    by_cases hx : x.1 = d
    · simp [lookupDir, hx]
    · simp only [lookupDir, if_neg hx]
      exact ih nd.2 d
  | swap x y l =>
    intro nd d
    simp only [List.map_cons, List.nodup_cons, List.mem_cons] at nd
    by_cases hy : y.1 = d <;> by_cases hx : x.1 = d
    · exfalso
      exact nd.1 (Or.inl (hy.trans hx.symm))
    · simp [lookupDir, hy, hx]
    · simp [lookupDir, hy, hx]
    · simp [lookupDir, hy, hx]
  | trans p1 p2 ih1 ih2 =>
    intro nd d
    rw [ih1 nd d, ih2 (((p1.map Prod.fst).nodup_iff).mp nd) d]

theorem findEntry?_perm {l1 l2 : List IndexEntry} (hp : l1.Perm l2) :
    (l1.map IndexEntry.fileName).Nodup →
      ∀ fn, findEntry? fn l1 = findEntry? fn l2 := by
  induction hp with
  | nil => intro _ fn; rfl
  | cons x p ih =>
    intro nd fn
    simp only [List.map_cons, List.nodup_cons] at nd
    by_cases hx : x.fileName = fn
    · simp [findEntry?, hx]
    · simp only [findEntry?, if_neg hx]
      exact ih nd.2 fn
  | swap x y l =>
    intro nd fn
    simp only [List.map_cons, List.nodup_cons, List.mem_cons] at nd
    by_cases hy : y.fileName = fn <;> by_cases hx : x.fileName = fn
    · exfalso
      exact nd.1 (Or.inl (hy.trans hx.symm))
    · simp [findEntry?, hy, hx]
    · simp [findEntry?, hy, hx]
    · simp [findEntry?, hy, hx]
  | trans p1 p2 ih1 ih2 =>
    intro nd fn
    rw [ih1 nd fn, ih2 (((p1.map IndexEntry.fileName).nodup_iff).mp nd) fn]

theorem findEntry?_map_reparse (d0 : Str) (l : List IndexEntry) (fn : Str) :
    findEntry? fn (l.map (reparseE d0)) =
      (findEntry? fn l).map (reparseE d0) := by
  induction l with
  | nil => rfl
  | cons e es ih =>
    simp only [List.map_cons, findEntry?]
    rw [show (reparseE d0 e).fileName = e.fileName from rfl]
    by_cases h : e.fileName = fn <;> simp [h, ih]

theorem lookupDir_canon_none (m : IndexMap) (d : Str)
    (h : d ∉ m.map Prod.fst) : lookupDir (canonEntries m) d = none := by
  rw [lookupDir_eq_none_iff]
  intro hc
  apply h
  unfold canonEntries at hc
  simp only [List.map_map, List.mem_map, Function.comp] at hc
  obtain ⟨p, hp, hpd⟩ := hc
  exact List.mem_map.mpr ⟨p, (List.mem_filter.mp hp).1, hpd⟩

theorem lookupEntry_cons_ne (p : Str × List IndexEntry) (rest : IndexMap)
    (d fn : Str) (h : ¬(p.1 = d)) :
    lookupEntry (p :: rest) d fn = lookupEntry rest d fn := by
  unfold lookupEntry
  simp [lookupDir, h]

theorem lookupEntry_cons_ne2 (k : Str) (es : List IndexEntry)
    (rest : IndexMap) (d fn : Str) (h : ¬(k = d)) :
    lookupEntry ((k, es) :: rest) d fn = lookupEntry rest d fn := by
  unfold lookupEntry
  simp [lookupDir, h]

theorem lookupEntry_canonEntries (m : IndexMap) (d fn : Str) :
    (m.map Prod.fst).Nodup →
    (∀ p ∈ m, (p.2.map IndexEntry.fileName).Nodup) →
    lookupEntry (canonEntries m) d fn =
      (lookupEntry m d fn).map (reparseE d) := by
  induction m with
  | nil => intro _ _; rfl
  | cons p rest ih =>
    intro hkeys hnames
    rw [canonEntries_cons]
    simp only [List.map_cons, List.nodup_cons] at hkeys
    by_cases hemp : p.2.isEmpty
    · rw [if_pos hemp]
      simp only [List.nil_append]
      by_cases hd : p.1 = d
      · have h1 : lookupDir (canonEntries rest) d = none :=
          lookupDir_canon_none rest d (hd ▸ hkeys.1)
        have hp2 : p.2 = [] := by
          cases hl : p.2
          · rfl
          · rw [hl] at hemp
            simp at hemp
        unfold lookupEntry
        rw [h1]
        simp [lookupDir, hd, hp2, findEntry?]
      · rw [lookupEntry_cons_ne p rest d fn hd]
        exact ih hkeys.2
          (fun q hq => hnames q (List.mem_cons.mpr (Or.inr hq)))
    · rw [if_neg hemp]
      simp only [List.cons_append, List.nil_append]
      by_cases hd : p.1 = d
      · subst hd
        have hnp := hnames p (List.mem_cons.mpr (Or.inl rfl))
        have hsortperm :=
          sortByB_perm (fun a b => strLeB a.fileName b.fileName) p.2
        unfold lookupEntry
        simp only [lookupDir, if_pos rfl, ite_true, Option.some_bind]
        rw [findEntry?_map_reparse]
        rw [findEntry?_perm hsortperm
          ((hsortperm.map IndexEntry.fileName).nodup_iff.mpr hnp) fn]
      · rw [lookupEntry_cons_ne2 p.1
          ((sortByB (fun a b => strLeB a.fileName b.fileName) p.2).map
            (reparseE p.1)) (canonEntries rest) d fn hd,
          lookupEntry_cons_ne p rest d fn hd]
        exact ih hkeys.2
          (fun q hq => hnames q (List.mem_cons.mpr (Or.inr hq)))

/-- C5 (amended): rendering an index mapping with `writeIndexFile` and
re-parsing it with `readExistingIndex` reproduces, for every
(directory, fileName) key, the entry's file name and rendered line — but the
`filePath` field comes back re-derived as `dir/fileName` (extension lost),
as `reparseE` records.  Requires well-formed keys (nonempty, duplicate-free)
and entry lines in the generator's grammar. -/
theorem renderIndex_parse_roundTrip (now : Str) (m : IndexMap)
    (hkeys : (m.map Prod.fst).Nodup)
    (hkeysne : ∀ p ∈ m, p.1 ≠ [])
    (hnames : ∀ p ∈ m, (p.2.map IndexEntry.fileName).Nodup)
    (hwf : ∀ p ∈ m, ∀ e ∈ p.2, startsWithStr (strOf "- **[") e.entry = true ∧
      scanBracketName e.entry = some e.fileName) :
    ∀ d fn, lookupEntry (parseIndexLines (renderIndexLines now m)) d fn =
      (lookupEntry m d fn).map (reparseE d) := by
  intro d fn
  rw [parse_render_eq_canon now m hkeys hkeysne hwf]
  have hperm := sortByB_perm (fun a b => strLeB a.1 b.1) m
  have hkeys2 : ((sortByB (fun a b => strLeB a.1 b.1) m).map Prod.fst).Nodup :=
    (hperm.map Prod.fst).nodup_iff.mpr hkeys
  rw [lookupEntry_canonEntries _ d fn hkeys2
    (fun p hp => hnames p (hperm.mem_iff.mp hp))]
  unfold lookupEntry
  rw [lookupDir_perm hperm hkeys2 d]

/-- C5 (counterexample): a freshly generated entry for `src/a.ts` does not
survive a render-and-parse round trip unchanged — the parser rebuilds its
`filePath` as `src/a`, dropping the source extension, so the claimed
key-to-entry mapping equality (with only preamble, counts and timestamp
excluded) fails. -/
theorem renderIndex_parse_loses_filePath :
    lookupEntry (parseIndexLines (renderIndexLines (strOf "now")
      [(strOf "src", [(⟨strOf "a", strOf "- **[a](docs/src/a.md)**",
        strOf "src/a.ts"⟩ : IndexEntry)])])) (strOf "src") (strOf "a") ≠
    lookupEntry [(strOf "src", [(⟨strOf "a", strOf "- **[a](docs/src/a.md)**",
      strOf "src/a.ts"⟩ : IndexEntry)])] (strOf "src") (strOf "a") := by
  decide

theorem renderIndex_parse_roundTrip_witness :
    lookupEntry (parseIndexLines (renderIndexLines (strOf "now")
      [(strOf "src", [(⟨strOf "a", strOf "- **[a](docs/src/a.md)**",
        strOf "src/a.ts"⟩ : IndexEntry)])])) (strOf "src") (strOf "a") =
      (lookupEntry [(strOf "src", [(⟨strOf "a",
        strOf "- **[a](docs/src/a.md)**",
        strOf "src/a.ts"⟩ : IndexEntry)])] (strOf "src") (strOf "a")).map
        (reparseE (strOf "src")) :=
  renderIndex_parse_roundTrip (strOf "now")
    [(strOf "src", [(⟨strOf "a", strOf "- **[a](docs/src/a.md)**",
      strOf "src/a.ts"⟩ : IndexEntry)])]
    (by decide) (by decide) (by decide) (by decide) (strOf "src") (strOf "a")
